import Mathlib

/-! A shallow embedding of the dependency-driven task orchestrator of src/index.js.
    The mutable JS state is modelled by pure data; the callback-driven control flow
    of the scheduler (_runStep, _runTask and the completion handlers it installs) is
    modelled as a small-step frame machine, so that statements about intermediate
    moments of a run can be made and proved.  User-supplied executors are modelled
    by a behaviour description (ExecSpec); their asynchronous completion signals are
    delivered by the environment as explicit events.  Console logging (the verbose
    flag) is omitted: it only writes to stdout.  JS falsy error values (undefined,
    null, the empty string, 0) are modelled by none : Option Err.  Run-state updates
    performed by a completion closure are modelled by task name; no claim involves
    re-registering a task between its start and its completion signal. -/

set_option maxRecDepth 100000

deriving instance DecidableEq for Except

namespace Orch

abbrev Err := String

/-- Behaviour description of a user-supplied executor (task.fn): its declared
    parameter count (task.fn.length, src/index.js line 184), whether it invokes the
    completion callback it received synchronously during the call (and with which
    error value), whether it throws synchronously, and whether its return value is
    a deferred handle, that is an object with a done method (line 166). -/
structure ExecSpec where
  arity : Nat
  syncCb : Option (Option Err)
  thrown : Option (Option Err)
  promiseLike : Bool
deriving DecidableEq

/-- A JS value in the executor or dependency argument position: add does not
    validate its arguments (the TODO at src/index.js line 31), so a stored task.fn
    can hold a non-function value. -/
inductive JVal where
  | undef
  | str (s : String)
  | arr (l : List String)
  | func (f : ExecSpec)
deriving DecidableEq

/-- JS truthiness of a JVal; note that an empty array is truthy. -/
def JVal.truthy : JVal → Bool
  | JVal.undef => false
  | JVal.str s => s != ""
  | JVal.arr _ => true
  | JVal.func _ => true

/-- Reading the length property of a stored executor value (task.fn.length);
    none when the read itself would throw (reading a property of undefined). -/
def JVal.jlen : JVal → Option Nat
  | JVal.undef => none
  | JVal.str s => some s.length
  | JVal.arr l => some l.length
  | JVal.func f => some f.arity

/-- A task object as stored by add (src/index.js lines 32-36): name, dependency
    names, executor value, and the transient run-state flags done and running,
    absent (falsy) on a fresh object. -/
structure Task where
  name : String
  dep : List String
  fn : JVal
  done : Bool
  running : Bool
deriving DecidableEq

/-- Lookup in the task map (this.tasks), modelled as an insertion-ordered
    association list. -/
def lookupT : List (String × Task) → String → Option Task
  | [], _ => none
  | p :: rest, n => if p.1 = n then some p.2 else lookupT rest n

/-- Assignment this.tasks[name] = t: overwrites in place, else appends
    (JS objects keep the original insertion position of an overwritten key). -/
def upsertT : List (String × Task) → String → Task → List (String × Task)
  | [], n, t => [(n, t)]
  | p :: rest, n, t => if p.1 = n then (n, t) :: rest else p :: upsertT rest n t

/-- Updating the run-state flags of the task stored under a name. -/
def updTask (ts : List (String × Task)) (n : String) (f : Task → Task) :
    List (String × Task) :=
  ts.map fun p => if p.1 = n then (p.1, f p.2) else p

/-- The orchestrator object state (src/index.js lines 5-12).  The verbose flag is
    omitted (console logging only); doneCallback records whether a completion
    notifier is currently registered, its invocations being recorded in the trace. -/
structure Orchestrator where
  doneCallback : Bool
  seq : List String
  tasks : List (String × Task)
  isRunning : Bool
deriving DecidableEq

/-- Observable events of a run: executor invocations (line 162), the three
    completion paths (calledback line 150, resolved/rejected lines 169-183,
    synchronous finish lines 184-193), and invocations of the registered
    completion notifier (line 90). -/
inductive TEvent where
  | started (name : String)
  | calledback (name : String) (err : Option Err)
  | resolved (name : String)
  | rejected (name : String) (err : Option Err)
  | finishedSync (name : String)
  | notified (err : Option Err)
deriving DecidableEq

/-- Control frames of the scheduler machine.  runStep is an entry into _runStep
    (line 105); scan i is the for loop of _runStep at index i (line 110);
    afterTask i is the abort check at line 115 followed by the next iteration;
    endScan is the allDone check at line 119; execFn is the executor invocation at
    line 162; afterFn is the rest of _runTask after the call returns (lines
    166-193); cbBody, resolveBody and rejectBody are the bodies of the completion
    closures (lines 150-160, 169-175, 176-183). -/
inductive Frame where
  | runStep
  | scan (i : Nat)
  | afterTask (i : Nat)
  | endScan
  | execFn (name : String)
  | afterFn (name : String)
  | cbBody (name : String) (err : Option Err)
  | resolveBody (name : String)
  | rejectBody (name : String) (err : Option Err)
deriving DecidableEq

/-- A machine configuration: the orchestrator object, the control stack of the
    current synchronous burst, the set of tasks whose completion callback closure
    exists (cb, line 150), the set of tasks with a wired but unsettled deferred
    handle (lines 166-183), the event trace, and a pending uncaught exception. -/
structure Config where
  o : Orchestrator
  stack : List Frame
  cbLive : List String
  promisePending : List String
  trace : List TEvent
  exn : Option Err
deriving DecidableEq

/-- stop(err, successfulFinish), src/index.js lines 75-92: clears the running
    flag and, if a completion notifier is registered, unregisters it and invokes
    it with err.  The successfulFinish argument only selects a verbose log line. -/
def stopFn (err : Option Err) (_successfulFinish : Bool) (c : Config) : Config :=
  let o1 : Orchestrator := { c.o with isRunning := false }
  if o1.doneCallback then
    { c with o := { o1 with doneCallback := false },
             trace := c.trace ++ [TEvent.notified err] }
  else
    { c with o := o1 }

/-- The dependency scan of _readyToRunTask (lines 123-143): walks the dependency
    names in order; the first missing dependency produces the stop message of line
    132, the first unfinished one makes the task not ready. -/
inductive Ready where
  | go
  | wait
  | missing (msg : Err)
deriving DecidableEq

def readyScan (ts : List (String × Task)) (taskName : String) : List String → Ready
  | [] => Ready.go
  | d :: rest =>
    match lookupT ts d with
    | none => Ready.missing ("cannot run " ++ taskName ++ " because it depends on "
        ++ d ++ " which does not exist")
    | some t => if t.done then readyScan ts taskName rest else Ready.wait

/-- The loop of allDone (lines 94-104): breaks at the first unfinished task; none
    models the TypeError raised when a sequence name has no task object. -/
def allDoneScan (ts : List (String × Task)) : List String → Option Bool
  | [] => some true
  | n :: rest =>
    match lookupT ts n with
    | none => none
    | some t => if t.done then allDoneScan ts rest else some false

/-- Marking a task finished: task.running = false; task.done = true
    (lines 151-152, 170-171, 177-178, 189-190). -/
def markDone (c : Config) (n : String) : Config :=
  let ts1 := updTask c.o.tasks n (fun u => { u with running := false, done := true })
  { c with o := { c.o with tasks := ts1 } }

/-- Execution of one control frame (the body of step below), given the frames
    below it.  Each frame is executed as the corresponding source lines
    prescribe. -/
def stepFrame (c : Config) : Frame → List Frame → Config
  | Frame.runStep, rest =>
    -- line 107: if (!this.isRunning) return
    if c.o.isRunning then { c with stack := Frame.scan 0 :: rest }
    else { c with stack := rest }
  | Frame.scan i, rest =>
    match c.o.seq.get? i with
    | none => { c with stack := Frame.endScan :: rest }
    | some n =>
      match lookupT c.o.tasks n with
      | none =>
        -- line 111 then 112: reading task.done of undefined throws
        { c with exn := some "TypeError: task is undefined", stack := [] }
      | some t =>
        -- line 112: !task.done && !task.running && this._readyToRunTask(task)
        if !t.done && !t.running then
          match readyScan c.o.tasks n t.dep with
          | Ready.go =>
            -- _runTask, lines 144-162: mark running, create cb, invoke executor
            let ts1 := updTask c.o.tasks n (fun u => { u with running := true })
            { c with
              o := { c.o with tasks := ts1 },
              cbLive := n :: c.cbLive,
              trace := c.trace ++ [TEvent.started n],
              stack := Frame.execFn n :: Frame.afterTask i :: rest }
          | Ready.wait => { c with stack := Frame.afterTask i :: rest }
          | Ready.missing msg =>
            -- line 132: stop called from inside the readiness check
            stopFn (some msg) false { c with stack := Frame.afterTask i :: rest }
        else { c with stack := Frame.afterTask i :: rest }
  | Frame.afterTask i, rest =>
    -- line 115: if (!this.isRunning) return
    if c.o.isRunning then { c with stack := Frame.scan (i + 1) :: rest }
    else { c with stack := rest }
  | Frame.endScan, rest =>
    -- lines 119-121: if (this.allDone()) this.stop(null, true)
    match allDoneScan c.o.tasks c.o.seq with
    | none => { c with exn := some "TypeError: task is undefined", stack := [] }
    | some b =>
      if b then stopFn none true { c with stack := rest }
      else { c with stack := rest }
  | Frame.execFn n, rest =>
    match lookupT c.o.tasks n with
    | none => { c with stack := rest }
    | some t =>
      match t.fn with
      | JVal.func f =>
        match f.syncCb with
        | some e => { c with stack := Frame.cbBody n e :: Frame.afterFn n :: rest }
        | none => { c with stack := Frame.afterFn n :: rest }
      | _ => { c with stack := Frame.afterFn n :: rest }
  | Frame.afterFn n, rest =>
    match lookupT c.o.tasks n with
    | none => { c with stack := rest }
    | some t =>
      -- outcome of p = task.fn.call(this, cb): a non-function value throws
      let thrownV : Option (Option Err) :=
        match t.fn with
        | JVal.func f => f.thrown
        | JVal.undef => some (some "TypeError: task.fn is not a function")
        | _ => some (some "TypeError: task.fn.call is not a function")
      let isP : Bool :=
        match t.fn with
        | JVal.func f => f.thrown = none && f.promiseLike
        | _ => false
      -- lines 161-165: catch (err) falls through to line 166 after stopping
      let c1 : Config :=
        match thrownV with
        | some e => stopFn (some (e.getD (n ++ " threw an exception"))) false c
        | none => c
      if isP then
        -- lines 166-183: wire the deferred handle
        { c1 with promisePending := n :: c1.promisePending, stack := rest }
      else
        match t.fn.jlen with
        | none => { c1 with exn := some "TypeError: task.fn is undefined", stack := [] }
        | some len =>
          if len = 0 then
            -- lines 184-193: no promise, no callback parameter: done at return
            { (markDone c1 n) with
                trace := c1.trace ++ [TEvent.finishedSync n], stack := rest }
          else
            { c1 with stack := rest }
  | Frame.cbBody n err, rest =>
    -- lines 150-160
    let c1 : Config := { (markDone c n) with
        trace := c.trace ++ [TEvent.calledback n err] }
    match err with
    | some e => stopFn (some e) false { c1 with stack := rest }
    | none => { c1 with stack := Frame.runStep :: rest }
  | Frame.resolveBody n, rest =>
    -- lines 169-175
    { (markDone c n) with
        trace := c.trace ++ [TEvent.resolved n],
        stack := Frame.runStep :: rest }
  | Frame.rejectBody n err, rest =>
    -- lines 176-183
    let c1 : Config := { (markDone c n) with
        trace := c.trace ++ [TEvent.rejected n err] }
    stopFn (some (err.getD (n ++ " promise rejected"))) false { c1 with stack := rest }

/-- One step of the scheduler machine: execute the top control frame; a set exn
    freezes the machine (an uncaught exception has propagated), an empty stack
    means the current synchronous burst is over. -/
def step (c : Config) : Config :=
  if c.exn.isSome then c else
  match c.stack with
  | [] => c
  | f :: rest => stepFrame c f rest

/-- Iterated machine steps. -/
def stepN : Nat → Config → Config
  | 0, c => c
  | k + 1, c => stepN k (step c)

/-- A completion signal the environment can deliver: an invocation of a task's
    completion callback (possible as long as the closure exists, any number of
    times), or the settling of a wired deferred handle (at most once). -/
inductive Event where
  | cbCall (name : String) (err : Option Err)
  | resolve (name : String)
  | reject (name : String) (err : Option Err)
deriving DecidableEq

/-- Delivery of a completion signal by the host event loop: handlers only run
    when the current synchronous burst has finished (empty stack), and only if
    the corresponding closure or unsettled handle exists. -/
def deliver (e : Event) (c : Config) : Config :=
  if c.stack = [] ∧ c.exn = none then
    match e with
    | Event.cbCall n err =>
      if n ∈ c.cbLive then { c with stack := [Frame.cbBody n err] } else c
    | Event.resolve n =>
      if n ∈ c.promisePending then
        { c with promisePending := c.promisePending.erase n,
                 stack := [Frame.resolveBody n] }
      else c
    | Event.reject n err =>
      if n ∈ c.promisePending then
        { c with promisePending := c.promisePending.erase n,
                 stack := [Frame.rejectBody n err] }
      else c
  else c

/-- Modelled from the spec: the sequencer function lives in lib/sequence.js,
    required at src/index.js line 93, and that file is not part of src/.  Spec
    section 4.2: depth-first expansion; for each name visited, first recursively
    visit its dependencies, then append the name to the output if not already
    present; maintain a currently-expanding marker (nest) for the active recursion
    path, failing with a CircularDependencyError when a name is met while still
    expanding; fail with a DependencyError when a referenced name is not
    registered.  The fuel argument and its exhaustion error are a modelling
    artifact of the recursion; fuel tasks.length + 1 is proved sufficient. -/
def seqVisit (tasks : List (String × Task)) :
    Nat → List String → List String → List String → Except Err (List String)
  | 0, _, _, _ => Except.error "model recursion fuel exhausted"
  | _ + 1, [], results, _ => Except.ok results
  | fuel + 1, n :: rest, results, nest =>
    if n ∈ results then seqVisit tasks fuel rest results nest
    else if n ∈ nest then
      Except.error ("Recursive dependencies detected: "
        ++ String.intercalate " -> " (nest ++ [n]))
    else
      match lookupT tasks n with
      | none => Except.error ("task " ++ n ++ " is not registered (referenced by "
          ++ String.intercalate " -> " nest ++ ")")
      | some t =>
        match seqVisit tasks fuel t.dep results (nest ++ [n]) with
        | Except.error e => Except.error e
        | Except.ok results2 =>
          seqVisit tasks fuel rest (results2 ++ [n]) nest

/-- The longest dependency list of any registered task, used for the fuel bound. -/
def maxDepLen (tasks : List (String × Task)) : Nat :=
  (tasks.map (fun p => p.2.dep.length)).foldr max 0

/-- Modelled from the spec: the sequencer entry point (spec section 4.2,
    computeOrder), as called at src/index.js line 64 with an empty accumulator
    and an empty expansion path.  The fuel is large enough that a well-formed
    expansion never exhausts it (proved below). -/
def sequence (tasks : List (String × Task)) (names : List String) :
    Except Err (List String) :=
  seqVisit tasks (names.length + 1 + tasks.length * (maxDepLen tasks + 1)) names [] []

/-- The task value that a successful add stores (src/index.js lines 24-36): when
    the executor argument is falsy the dependencies argument is shifted into its
    place (lines 24-27), and the stored dependency list defaults to the empty
    list (line 34). -/
def storedTask (nm : String) (dep : Option (List String)) (fn : JVal) : Task :=
  ⟨nm, (if fn.truthy then dep.getD [] else []),
    (if fn.truthy then fn else match dep with
      | some l => JVal.arr l | none => JVal.undef), false, false⟩

/-- add(name, dep, fn), src/index.js lines 23-38: after the argument shift, a
    falsy name or executor value throws; otherwise the task is stored under the
    name with fresh (falsy) run-state flags, overwriting any prior task. -/
def addFn (name : Option String) (dep : Option (List String)) (fn : JVal)
    (o : Orchestrator) : Except Err Orchestrator :=
  match name with
  | none => Except.error "Task requires a name and a function to execute"
  | some nm =>
    if nm == "" || !(storedTask nm dep fn).fn.truthy then
      Except.error "Task requires a name and a function to execute"
    else
      Except.ok { o with tasks := upsertT o.tasks nm (storedTask nm dep fn) }

/-- The name list run works with (src/index.js lines 50-62): when already
    running, newly requested names are concatenated in front of the pending
    sequence; when no names remain, every registered name is used, in task-map
    insertion order. -/
def runNames (o : Orchestrator) (names : List String) : List String :=
  let m := if o.isRunning then names ++ o.seq else names
  if m.isEmpty then o.tasks.map (fun p => p.2.name) else m

/-- The tail of run after the sequencer came back (src/index.js lines 65-73):
    on success store the sequence, set the running flag and enter _runStep; on a
    sequencing failure deliver the error through the stop/notifier path.  The
    failure arm is modelled from the spec (section 7: graph errors are delivered
    to the registered notifier, never thrown out of run), since the sequencer
    file is not part of src/.  dc is the notifier registration after a trailing
    notifier argument was consumed (lines 43-48). -/
def runFinish (c : Config) (dc : Bool) (r : Except Err (List String)) : Config :=
  match r with
  | Except.error e =>
    stopFn (some e) false
      ⟨⟨dc, c.o.seq, c.o.tasks, c.o.isRunning⟩, [], c.cbLive, c.promisePending, [], none⟩
  | Except.ok s =>
    ⟨⟨dc, s, c.o.tasks, true⟩, [Frame.runStep], c.cbLive, c.promisePending, [], none⟩

/-- run(...names, notifier?), src/index.js lines 40-74: consume a trailing
    notifier argument (replacing the stored one), merge names, recompute the
    sequence and finish as in runFinish.  The trace is reset: it records the
    observable events of the run being started. -/
def runApi (names : List String) (notifier : Bool) (c : Config) : Config :=
  runFinish c (notifier || c.o.doneCallback)
    (sequence c.o.tasks
      (runNames ⟨notifier || c.o.doneCallback, c.o.seq, c.o.tasks, c.o.isRunning⟩ names))

/-- reset(), src/index.js lines 15-22: stop with no error, then discard the
    registry, the sequence, the running flag and the notifier. -/
def resetFn (c : Config) : Config :=
  let c1 := stopFn none false c
  let o2 : Orchestrator := ⟨false, [], [], false⟩
  { c1 with o := o2 }

/-- A fresh orchestrator (the constructor with no options, lines 5-12). -/
def emptyOrch : Orchestrator := ⟨false, [], [], false⟩

/-- A quiescent machine configuration around an orchestrator object. -/
def initConfig (o : Orchestrator) : Config := ⟨o, [], [], [], [], none⟩

/-- The names of the executors invoked during a trace, in order. -/
def startedOf (tr : List TEvent) : List String :=
  tr.filterMap fun e => match e with | TEvent.started n => some n | _ => none

/-- The arguments of the notifier invocations recorded in a trace, in order. -/
def notifiedOf (tr : List TEvent) : List (Option Err) :=
  tr.filterMap fun e => match e with | TEvent.notified err => some err | _ => none

/-- All dependencies of a task are finished (the pure content of the
    _readyToRunTask loop, lines 126-141). -/
def depsDoneB (ts : List (String × Task)) (dep : List String) : Bool :=
  dep.all fun d => match lookupT ts d with | some td => td.done | none => false

/-- A task is eligible to start: registered, not done, not running, and with
    every dependency finished (the guard of line 112). -/
def eligible (o : Orchestrator) (n : String) : Bool :=
  match lookupT o.tasks n with
  | some t => !t.done && !t.running && depsDoneB o.tasks t.dep
  | none => false

/-- The task at sequence position j is eligible to start. -/
def eligAt (o : Orchestrator) (j : Nat) : Prop :=
  ∃ n, o.seq.get? j = some n ∧ eligible o n = true

/-! ### Basic lemmas about the task map -/

theorem lookupT_updTask_self (ts : List (String × Task)) (n : String) (f : Task → Task) :
    lookupT (updTask ts n f) n = (lookupT ts n).map f := by
  induction ts with
  | nil => rfl
  | cons p rest ih =>
    by_cases h : p.1 = n <;> simp [lookupT, updTask, h] at ih ⊢ <;> exact ih

theorem lookupT_updTask_ne (ts : List (String × Task)) (n m : String) (f : Task → Task)
    (h : m ≠ n) : lookupT (updTask ts n f) m = lookupT ts m := by
  induction ts with
  | nil => rfl
  | cons p rest ih =>
    show (if (if p.1 = n then (p.1, f p.2) else p).1 = m
          then some (if p.1 = n then (p.1, f p.2) else p).2
          else lookupT (updTask rest n f) m) =
         (if p.1 = m then some p.2 else lookupT rest m)
    by_cases hp : p.1 = n
    · rw [if_pos hp]
      show (if p.1 = m then some (f p.2) else lookupT (updTask rest n f) m) = _
      have hm : ¬ p.1 = m := by rw [hp]; exact fun hh => h hh.symm
      rw [if_neg hm, if_neg hm, ih]
    · rw [if_neg hp]
      by_cases hm : p.1 = m
      · rw [if_pos hm, if_pos hm]
      · rw [if_neg hm, if_neg hm, ih]

theorem lookupT_upsertT_self (ts : List (String × Task)) (n : String) (t : Task) :
    lookupT (upsertT ts n t) n = some t := by
  induction ts with
  | nil => simp [upsertT, lookupT]
  | cons p rest ih =>
    by_cases h : p.1 = n
    · simp [upsertT, lookupT, h]
    · simp [upsertT, lookupT, h, ih]

theorem lookupT_mem (ts : List (String × Task)) (n : String) (t : Task) :
    lookupT ts n = some t → (n, t) ∈ ts := by
  induction ts with
  | nil => intro h; simp [lookupT] at h
  | cons p rest ih =>
    intro h
    by_cases hp : p.1 = n
    · rw [show lookupT (p :: rest) n = if p.1 = n then some p.2 else lookupT rest n from rfl,
        if_pos hp] at h
      have ht : p.2 = t := by injection h
      have hpe : p = (n, t) := by
        rcases p with ⟨p1, p2⟩
        simp only at hp ht
        rw [hp, ht]
      rw [← hpe]
      exact List.mem_cons_self _ _
    · rw [show lookupT (p :: rest) n = if p.1 = n then some p.2 else lookupT rest n from rfl,
        if_neg hp] at h
      exact List.mem_cons_of_mem _ (ih h)

theorem mem_keys_lookup (ts : List (String × Task)) (n : String) :
    n ∈ ts.map Prod.fst → ∃ t, lookupT ts n = some t := by
  induction ts with
  | nil => intro h; simp at h
  | cons p rest ih =>
    intro h
    by_cases hp : p.1 = n
    · exact ⟨p.2, by simp [lookupT, hp]⟩
    · rcases List.mem_cons.mp h with h1 | h1
      · exact absurd h1.symm hp
      · rcases ih h1 with ⟨t, ht⟩
        exact ⟨t, by simp [lookupT, hp, ht]⟩

/-- A step on an empty stack is the identity (the synchronous burst is over). -/
theorem step_quiescent (c : Config) (h : c.stack = []) : step c = c := by
  unfold step
  rw [h]
  by_cases he : c.exn.isSome <;> simp [he]

theorem stepN_quiescent (k : Nat) (c : Config) (h : c.stack = []) : stepN k c = c := by
  induction k with
  | zero => rfl
  | succ k ih => show stepN k (step c) = c; rw [step_quiescent c h, ih]

theorem stepN_add (a b : Nat) (c : Config) : stepN (a + b) c = stepN b (stepN a c) := by
  induction a generalizing c with
  | zero => rw [Nat.zero_add]; rfl
  | succ a ih =>
    have hh : a + 1 + b = (a + b) + 1 := by omega
    rw [hh]
    show stepN (a + b) (step c) = stepN b (stepN (a + 1) c)
    rw [ih (step c)]
    rfl

/-- What stop changes and what it preserves, in one bundle. -/
theorem stopFn_spec (e : Option Err) (s : Bool) (c : Config) :
    (stopFn e s c).o.isRunning = false ∧
    (stopFn e s c).o.seq = c.o.seq ∧
    (stopFn e s c).o.tasks = c.o.tasks ∧
    (stopFn e s c).stack = c.stack ∧
    (stopFn e s c).cbLive = c.cbLive ∧
    (stopFn e s c).promisePending = c.promisePending ∧
    (stopFn e s c).exn = c.exn ∧
    (stopFn e s c).o.doneCallback = false ∧
    (stopFn e s c).trace =
      (if c.o.doneCallback then c.trace ++ [TEvent.notified e] else c.trace) := by
  unfold stopFn
  by_cases h : c.o.doneCallback <;> simp [h]

/-! ### Claim C4 -/

/-- C4: stop is idempotent with respect to the notifier.  For every configuration
    with a registered completion notifier, the first stop clears the running flag,
    fires the notifier exactly once with the given error and unregisters it, and a
    second stop (with any arguments) leaves the configuration exactly as the first
    left it and fires nothing. -/
theorem C4_stop_idempotent (c : Config) (e1 e2 : Option Err) (s1 s2 : Bool)
    (h : c.o.doneCallback = true) :
    (stopFn e1 s1 c).trace = c.trace ++ [TEvent.notified e1] ∧
    (stopFn e1 s1 c).o.doneCallback = false ∧
    (stopFn e1 s1 c).o.isRunning = false ∧
    stopFn e2 s2 (stopFn e1 s1 c) = stopFn e1 s1 c := by
  simp [stopFn, h]

/-- Witness for C4 at a concrete configuration. -/
theorem C4_witness :
    (stopFn (some "boom") false (initConfig ⟨true, [], [], true⟩)).trace =
        (initConfig ⟨true, [], [], true⟩).trace ++ [TEvent.notified (some "boom")] ∧
    (stopFn (some "boom") false (initConfig ⟨true, [], [], true⟩)).o.doneCallback = false ∧
    (stopFn (some "boom") false (initConfig ⟨true, [], [], true⟩)).o.isRunning = false ∧
    stopFn none true (stopFn (some "boom") false (initConfig ⟨true, [], [], true⟩)) =
      stopFn (some "boom") false (initConfig ⟨true, [], [], true⟩) :=
  C4_stop_idempotent (initConfig ⟨true, [], [], true⟩) (some "boom") none false true (by decide)

/-! ### Claim C6 -/

/-- C6: a started task whose executor declares zero parameters, returns no
    deferred handle, does not invoke its callback synchronously and does not
    throw, is marked done and not running immediately when the executor call
    returns (the two machine steps that perform lines 162 and 184-193), with no
    notifier invocation and no change to the running flag. -/
theorem C6_sync_completion (o : Orchestrator) (n : String) (rest : List Frame)
    (cbl pp : List String) (tr : List TEvent) (t : Task)
    (hlook : lookupT o.tasks n = some t)
    (hfn : t.fn = JVal.func ⟨0, none, none, false⟩) :
    lookupT (stepN 2 ⟨o, Frame.execFn n :: rest, cbl, pp, tr, none⟩).o.tasks n =
        some { t with done := true, running := false } ∧
    (stepN 2 ⟨o, Frame.execFn n :: rest, cbl, pp, tr, none⟩).stack = rest ∧
    (stepN 2 ⟨o, Frame.execFn n :: rest, cbl, pp, tr, none⟩).trace =
        tr ++ [TEvent.finishedSync n] ∧
    (stepN 2 ⟨o, Frame.execFn n :: rest, cbl, pp, tr, none⟩).o.isRunning = o.isRunning ∧
    notifiedOf (stepN 2 ⟨o, Frame.execFn n :: rest, cbl, pp, tr, none⟩).trace =
        notifiedOf tr := by
  have h1 : step ⟨o, Frame.execFn n :: rest, cbl, pp, tr, none⟩ =
      ⟨o, Frame.afterFn n :: rest, cbl, pp, tr, none⟩ := by
    simp [step, stepFrame, hlook, hfn]
  have h2 : step ⟨o, Frame.afterFn n :: rest, cbl, pp, tr, none⟩ =
      ⟨⟨o.doneCallback, o.seq,
          updTask o.tasks n (fun u => { u with running := false, done := true }),
          o.isRunning⟩,
        rest, cbl, pp, tr ++ [TEvent.finishedSync n], none⟩ := by
    simp [step, stepFrame, hlook, hfn, JVal.jlen, markDone]
  have h12 : stepN 2 ⟨o, Frame.execFn n :: rest, cbl, pp, tr, none⟩ =
      ⟨⟨o.doneCallback, o.seq,
          updTask o.tasks n (fun u => { u with running := false, done := true }),
          o.isRunning⟩,
        rest, cbl, pp, tr ++ [TEvent.finishedSync n], none⟩ := by
    rw [show stepN 2 ⟨o, Frame.execFn n :: rest, cbl, pp, tr, none⟩ =
          step (step ⟨o, Frame.execFn n :: rest, cbl, pp, tr, none⟩) from rfl, h1, h2]
  rw [h12]
  refine ⟨?_, rfl, rfl, rfl, ?_⟩
  · show lookupT (updTask o.tasks n (fun u => { u with running := false, done := true })) n =
        some { t with done := true, running := false }
    rw [lookupT_updTask_self, hlook]
    rfl
  · simp [notifiedOf]

/-- Witness for C6: a one-task registry, the task synchronous. -/
theorem C6_witness :
    lookupT (stepN 2 ⟨⟨false, ["s"], [("s", ⟨"s", [], JVal.func ⟨0, none, none, false⟩, false, true⟩)], true⟩,
        Frame.execFn "s" :: [Frame.afterTask 0], [], [], [], none⟩).o.tasks "s" =
      some ⟨"s", [], JVal.func ⟨0, none, none, false⟩, true, false⟩ :=
  (C6_sync_completion ⟨false, ["s"], [("s", ⟨"s", [], JVal.func ⟨0, none, none, false⟩, false, true⟩)], true⟩
    "s" [Frame.afterTask 0] [] [] [] ⟨"s", [], JVal.func ⟨0, none, none, false⟩, false, true⟩
    (by decide) (by decide)).1

/-! ### Claim C10 -/

/-- C10: a started task whose executor declares zero parameters and throws
    synchronously stops the run with that error (substituting the default message
    for a falsy thrown value), and nevertheless the fall-through to the
    synchronous branch of lines 184-193 marks the task done and not running. -/
theorem C10_throw_marks_done (o : Orchestrator) (n : String) (rest : List Frame)
    (cbl pp : List String) (tr : List TEvent) (t : Task) (e : Option Err) (pl : Bool)
    (hlook : lookupT o.tasks n = some t)
    (hfn : t.fn = JVal.func ⟨0, none, some e, pl⟩)
    (hdc : o.doneCallback = true) :
    (stepN 2 ⟨o, Frame.execFn n :: rest, cbl, pp, tr, none⟩).o.isRunning = false ∧
    lookupT (stepN 2 ⟨o, Frame.execFn n :: rest, cbl, pp, tr, none⟩).o.tasks n =
        some { t with done := true, running := false } ∧
    (stepN 2 ⟨o, Frame.execFn n :: rest, cbl, pp, tr, none⟩).trace =
        tr ++ [TEvent.notified (some (e.getD (n ++ " threw an exception"))),
               TEvent.finishedSync n] := by
  have h1 : step ⟨o, Frame.execFn n :: rest, cbl, pp, tr, none⟩ =
      ⟨o, Frame.afterFn n :: rest, cbl, pp, tr, none⟩ := by
    simp [step, stepFrame, hlook, hfn]
  have h2 : step ⟨o, Frame.afterFn n :: rest, cbl, pp, tr, none⟩ =
      ⟨⟨false, o.seq,
          updTask o.tasks n (fun u => { u with running := false, done := true }),
          false⟩,
        rest, cbl, pp,
        tr ++ [TEvent.notified (some (e.getD (n ++ " threw an exception"))),
               TEvent.finishedSync n], none⟩ := by
    simp [step, stepFrame, hlook, hfn, JVal.jlen, stopFn, hdc, markDone]
  have h12 : stepN 2 ⟨o, Frame.execFn n :: rest, cbl, pp, tr, none⟩ =
      ⟨⟨false, o.seq,
          updTask o.tasks n (fun u => { u with running := false, done := true }),
          false⟩,
        rest, cbl, pp,
        tr ++ [TEvent.notified (some (e.getD (n ++ " threw an exception"))),
               TEvent.finishedSync n], none⟩ := by
    rw [show stepN 2 ⟨o, Frame.execFn n :: rest, cbl, pp, tr, none⟩ =
          step (step ⟨o, Frame.execFn n :: rest, cbl, pp, tr, none⟩) from rfl, h1, h2]
  rw [h12]
  refine ⟨rfl, ?_, rfl⟩
  show lookupT (updTask o.tasks n (fun u => { u with running := false, done := true })) n =
      some { t with done := true, running := false }
  rw [lookupT_updTask_self, hlook]
  rfl

/-- Witness for C10: a single zero-parameter throwing task. -/
theorem C10_witness :
    (stepN 2 ⟨⟨true, ["t"], [("t", ⟨"t", [], JVal.func ⟨0, none, some (some "bad"), false⟩, false, true⟩)], true⟩,
        [Frame.execFn "t", Frame.afterTask 0], [], [], [], none⟩).o.isRunning = false ∧
    lookupT (stepN 2 ⟨⟨true, ["t"], [("t", ⟨"t", [], JVal.func ⟨0, none, some (some "bad"), false⟩, false, true⟩)], true⟩,
        [Frame.execFn "t", Frame.afterTask 0], [], [], [], none⟩).o.tasks "t" =
      some ⟨"t", [], JVal.func ⟨0, none, some (some "bad"), false⟩, true, false⟩ ∧
    (stepN 2 ⟨⟨true, ["t"], [("t", ⟨"t", [], JVal.func ⟨0, none, some (some "bad"), false⟩, false, true⟩)], true⟩,
        [Frame.execFn "t", Frame.afterTask 0], [], [], [], none⟩).trace =
      [] ++ [TEvent.notified (some "bad"), TEvent.finishedSync "t"] :=
  C10_throw_marks_done ⟨true, ["t"], [("t", ⟨"t", [], JVal.func ⟨0, none, some (some "bad"), false⟩, false, true⟩)], true⟩
    "t" [Frame.afterTask 0] [] [] [] ⟨"t", [], JVal.func ⟨0, none, some (some "bad"), false⟩, false, true⟩
    (some "bad") false (by decide) (by decide) (by decide)

/-! ### Claim C8 -/

/-- C8 counterexample: the claim says add throws if and only if the name or the
    executor is absent.  Here the name is present, a dependencies list is present
    and the executor argument is absent (undefined), so the claim requires a
    throw; but src/index.js lines 24-27 shift the dependencies argument into the
    executor position without any type validation (the TODO at line 31), and add
    succeeds, storing the dependency array as the task executor. -/
theorem C8_cex :
    addFn (some "a") (some ["b"]) JVal.undef emptyOrch =
      Except.ok ⟨false, [], [("a", ⟨"a", [], JVal.arr ["b"], false, false⟩)], false⟩ := by
  decide

/-- C8 amended: add throws exactly when the name is absent or empty, or when both
    the dependencies and the executor arguments are absent; a sole truthy
    dependencies argument is shifted into the executor position and stored as the
    executor.  On success the task is stored under the name (dependencies
    defaulting to the empty list), overwriting any prior task of that name, and
    no other orchestrator state changes. -/
theorem C8_add_amended (name : Option String) (dep : Option (List String)) (fn : JVal)
    (o : Orchestrator) :
    ((∃ e, addFn name dep fn o = Except.error e) ↔
      (name = none ∨ name = some "" ∨ (fn.truthy = false ∧ dep = none))) ∧
    (∀ o', addFn name dep fn o = Except.ok o' →
      o'.doneCallback = o.doneCallback ∧ o'.seq = o.seq ∧ o'.isRunning = o.isRunning ∧
      ∃ nm, name = some nm ∧
        o'.tasks = upsertT o.tasks nm (storedTask nm dep fn) ∧
        lookupT o'.tasks nm = some (storedTask nm dep fn)) := by
  have hfn1 : (storedTask "x" dep fn).fn.truthy = false ↔
      (fn.truthy = false ∧ dep = none) := by
    by_cases hf : fn.truthy
    · simp [storedTask, hf]
    · have h2 : fn.truthy = false := Bool.eq_false_iff.mpr hf
      rw [show (storedTask "x" dep fn).fn = (if fn.truthy then fn else match dep with
        | some l => JVal.arr l | none => JVal.undef) from rfl, if_neg hf]
      cases dep with
      | none => simp [show JVal.undef.truthy = false from rfl, h2]
      | some l => simp [show (JVal.arr l).truthy = true from rfl, h2]
  cases name with
  | none =>
    refine ⟨⟨fun _ => Or.inl rfl,
      fun _ => ⟨"Task requires a name and a function to execute", rfl⟩⟩,
      fun o' h => absurd h (by simp [addFn])⟩
  | some nm =>
    by_cases h0 : nm = ""
    · subst h0
      refine ⟨⟨fun _ => Or.inr (Or.inl rfl),
        fun _ => ⟨"Task requires a name and a function to execute", by simp [addFn]⟩⟩,
        fun o' h => absurd h (by simp [addFn])⟩
    · by_cases h1 : (storedTask nm dep fn).fn.truthy
      · have hok : addFn (some nm) dep fn o =
            Except.ok { o with tasks := upsertT o.tasks nm (storedTask nm dep fn) } := by
          have hb : (nm == "") = false := by
            exact beq_eq_false_iff_ne.mpr h0
          simp only [addFn, hb, Bool.false_or, h1, Bool.not_true,
            if_neg (by simp : ¬ (false = true))]
        constructor
        · constructor
          · intro ⟨e, he⟩
            rw [hok] at he
            exact absurd he (by simp)
          · intro hc
            rcases hc with hc | hc | hc
            · exact absurd hc (by simp)
            · exact absurd hc (by simp [h0])
            · have := hfn1.mpr hc
              have h1' : (storedTask nm dep fn).fn.truthy = true := h1
              rw [show (storedTask nm dep fn).fn = (storedTask "x" dep fn).fn from rfl] at h1'
              rw [this] at h1'
              exact absurd h1' (by simp)
        · intro o' h
          rw [hok] at h
          have ho : o' = { o with tasks := upsertT o.tasks nm (storedTask nm dep fn) } := by
            injection h with h'
            exact h'.symm
          subst ho
          exact ⟨rfl, rfl, rfl, nm, rfl, rfl, lookupT_upsertT_self _ _ _⟩
      · have herr : addFn (some nm) dep fn o =
            Except.error "Task requires a name and a function to execute" := by
          have hb : (nm == "") = false := beq_eq_false_iff_ne.mpr h0
          have h1' : (storedTask nm dep fn).fn.truthy = false := Bool.eq_false_iff.mpr h1
          simp [addFn, hb, h1']
        refine ⟨⟨fun _ => ?_,
          fun _ => ⟨"Task requires a name and a function to execute", herr⟩⟩,
          fun o' h => absurd h (by simp [herr])⟩
        have h1' : (storedTask nm dep fn).fn.truthy = false := Bool.eq_false_iff.mpr h1
        rw [show (storedTask nm dep fn).fn = (storedTask "x" dep fn).fn from rfl] at h1'
        exact Or.inr (Or.inr (hfn1.mp h1'))

/-- Witness for the amended C8: an empty name makes add throw. -/
theorem C8_witness :
    ∃ e, addFn (some "") (some ["d"]) (JVal.func ⟨0, none, none, false⟩) emptyOrch =
      Except.error e :=
  (C8_add_amended (some "") (some ["d"]) (JVal.func ⟨0, none, none, false⟩) emptyOrch).1.mpr
    (Or.inr (Or.inl rfl))

/-! ### Claim C5 -/

/-- A two-task registry for the late-callback scenario: task a declares a
    completion parameter and returns a deferred handle; task b declares a
    completion parameter only. -/
def c5Tasks : List (String × Task) :=
  [("a", ⟨"a", [], JVal.func ⟨1, none, none, true⟩, false, false⟩),
   ("b", ⟨"b", [], JVal.func ⟨1, none, none, false⟩, false, false⟩)]

/-- The run after starting both tasks. -/
def c5Run : Config := stepN 20 (runApi ["a", "b"] true (initConfig ⟨false, [], c5Tasks, false⟩))

/-- The run after the deferred handle of a resolves: a is done, b still running. -/
def c5Resolved : Config := stepN 20 (deliver (Event.resolve "a") c5Run)

/-- The run after the completion callback of a is additionally invoked, late,
    with an error. -/
def c5Late : Config := stepN 5 (deliver (Event.cbCall "a" (some "late")) c5Resolved)

/-- C5 counterexample: the claim says an invocation of the completion callback
    after the task is already done is a no-op that in particular does not abort
    the run.  Concretely: after the deferred handle of a resolved, a is done and
    not running and the run is still active; the late callback invocation with an
    error then aborts the run and fires the notifier (the cb closure of
    src/index.js lines 150-160 has no already-done guard). -/
theorem C5_cex :
    lookupT c5Resolved.o.tasks "a" =
        some ⟨"a", [], JVal.func ⟨1, none, none, true⟩, true, false⟩ ∧
    c5Resolved.o.isRunning = true ∧
    c5Late.o.isRunning = false ∧
    notifiedOf c5Late.trace = [some "late"] := by
  decide

/-- C5 amended: when the executor both declares a completion parameter and
    returns a deferred handle, the handle settling marks the task done; a
    completion-callback invocation arriving after the task is already done leaves
    every stored task unchanged (the flags it writes are already set), but it is
    not a no-op: invoked without an error it triggers a fresh scheduling pass,
    and invoked with an error it stops the run, delivering the error to the
    registered notifier. -/
theorem C5_late_callback_amended (o : Orchestrator) (n : String) (err : Option Err)
    (cbl pp : List String) (tr : List TEvent) (t : Task)
    (hcb : n ∈ cbl)
    (hlook : lookupT o.tasks n = some t)
    (hdone : t.done = true) (hrun : t.running = false) :
    (∀ m, lookupT (step (deliver (Event.cbCall n err) ⟨o, [], cbl, pp, tr, none⟩)).o.tasks m
        = lookupT o.tasks m) ∧
    (err = none → (step (deliver (Event.cbCall n err) ⟨o, [], cbl, pp, tr, none⟩)).stack
        = [Frame.runStep]) ∧
    (∀ e, err = some e →
      (step (deliver (Event.cbCall n err) ⟨o, [], cbl, pp, tr, none⟩)).o.isRunning = false ∧
      (o.doneCallback = true →
        notifiedOf (step (deliver (Event.cbCall n err) ⟨o, [], cbl, pp, tr, none⟩)).trace
          = notifiedOf tr ++ [some e])) := by
  have hd : deliver (Event.cbCall n err) ⟨o, [], cbl, pp, tr, none⟩ =
      ⟨o, [Frame.cbBody n err], cbl, pp, tr, none⟩ := by
    simp [deliver, hcb]
  have hmark : ∀ m, lookupT (updTask o.tasks n
      (fun u => { u with running := false, done := true })) m = lookupT o.tasks m := by
    intro m
    by_cases hm : m = n
    · subst hm
      rw [lookupT_updTask_self, hlook]
      rcases t with ⟨tn, td, tf, tdone, trun⟩
      have hdone' : tdone = true := hdone
      have hrun' : trun = false := hrun
      subst hdone'
      subst hrun'
      rfl
    · exact lookupT_updTask_ne _ _ _ _ hm
  rw [hd]
  cases err with
  | none =>
    have hs : step ⟨o, [Frame.cbBody n none], cbl, pp, tr, none⟩ =
        ⟨⟨o.doneCallback, o.seq,
            updTask o.tasks n (fun u => { u with running := false, done := true }),
            o.isRunning⟩,
          [Frame.runStep], cbl, pp, tr ++ [TEvent.calledback n none], none⟩ := by
      simp [step, stepFrame, markDone]
    rw [hs]
    exact ⟨fun m => hmark m, fun _ => rfl, fun e he => Option.noConfusion he⟩
  | some e =>
    have hs : step ⟨o, [Frame.cbBody n (some e)], cbl, pp, tr, none⟩ =
        stopFn (some e) false
          ⟨⟨o.doneCallback, o.seq,
              updTask o.tasks n (fun u => { u with running := false, done := true }),
              o.isRunning⟩,
            [], cbl, pp, tr ++ [TEvent.calledback n (some e)], none⟩ := by
      simp [step, stepFrame, markDone]
    rw [hs]
    obtain ⟨hr, hseq, hts, hstk, hcbl2, hppd, hexn, hdc, htr⟩ :=
      stopFn_spec (some e) false
        ⟨⟨o.doneCallback, o.seq,
            updTask o.tasks n (fun u => { u with running := false, done := true }),
            o.isRunning⟩,
          [], cbl, pp, tr ++ [TEvent.calledback n (some e)], none⟩
    refine ⟨fun m => ?_, fun hne => Option.noConfusion hne, fun e' he' => ?_⟩
    · rw [hts]
      exact hmark m
    · have hee : e = e' := by injection he'
      subst hee
      refine ⟨hr, fun hdcb => ?_⟩
      rw [htr]
      simp only [show (Config.mk
          ⟨o.doneCallback, o.seq,
            updTask o.tasks n (fun u => { u with running := false, done := true }),
            o.isRunning⟩
          [] cbl pp (tr ++ [TEvent.calledback n (some e)]) none).o.doneCallback
          = o.doneCallback from rfl, hdcb, if_true]
      simp [notifiedOf, List.filterMap_append]

/-- Witness for the amended C5 at a concrete configuration with a late erroring
    callback. -/
theorem C5_witness :
    (∀ m, lookupT (step (deliver (Event.cbCall "k" (some "x"))
        ⟨⟨true, ["k"], [("k", ⟨"k", [], JVal.func ⟨1, none, none, true⟩, true, false⟩)], true⟩,
          [], ["k"], [], [], none⟩)).o.tasks m
      = lookupT [("k", ⟨"k", [], JVal.func ⟨1, none, none, true⟩, true, false⟩)] m) ∧
    (some "x" = none → (step (deliver (Event.cbCall "k" (some "x"))
        ⟨⟨true, ["k"], [("k", ⟨"k", [], JVal.func ⟨1, none, none, true⟩, true, false⟩)], true⟩,
          [], ["k"], [], [], none⟩)).stack = [Frame.runStep]) ∧
    (∀ e, some "x" = some e →
      (step (deliver (Event.cbCall "k" (some "x"))
        ⟨⟨true, ["k"], [("k", ⟨"k", [], JVal.func ⟨1, none, none, true⟩, true, false⟩)], true⟩,
          [], ["k"], [], [], none⟩)).o.isRunning = false ∧
      ((⟨true, ["k"], [("k", ⟨"k", [], JVal.func ⟨1, none, none, true⟩, true, false⟩)], true⟩ :
          Orchestrator).doneCallback = true →
        notifiedOf (step (deliver (Event.cbCall "k" (some "x"))
          ⟨⟨true, ["k"], [("k", ⟨"k", [], JVal.func ⟨1, none, none, true⟩, true, false⟩)], true⟩,
            [], ["k"], [], [], none⟩)).trace = notifiedOf [] ++ [some e])) :=
  C5_late_callback_amended
    ⟨true, ["k"], [("k", ⟨"k", [], JVal.func ⟨1, none, none, true⟩, true, false⟩)], true⟩
    "k" (some "x") ["k"] [] [] ⟨"k", [], JVal.func ⟨1, none, none, true⟩, true, false⟩
    (by decide) (by decide) (by decide) (by decide)

/-! ### Claim C7 -/

/-- C7: calling run while the orchestrator is already running does not start an
    independent second run: the newly requested names are concatenated in front
    of the pending sequence (src/index.js line 53) before the sequence is
    recomputed; the recomputed sequence is stored, the running flag stays set,
    and the same single scheduler is re-entered. -/
theorem C7_run_merges (c : Config) (names : List String) (nf : Bool)
    (hrun : c.o.isRunning = true) (hne : names ++ c.o.seq ≠ []) :
    runNames c.o names = names ++ c.o.seq ∧
    (∀ out, sequence c.o.tasks (names ++ c.o.seq) = Except.ok out →
      (runApi names nf c).o.seq = out ∧
      (runApi names nf c).o.isRunning = true ∧
      (runApi names nf c).stack = [Frame.runStep]) := by
  have hrn : runNames c.o names = names ++ c.o.seq := by
    simp [runNames, hrun, List.isEmpty_iff, hne]
  refine ⟨hrn, fun out hseq => ?_⟩
  have hrn1 : runNames ⟨nf || c.o.doneCallback, c.o.seq, c.o.tasks, c.o.isRunning⟩ names
      = names ++ c.o.seq := by
    rw [show runNames ⟨nf || c.o.doneCallback, c.o.seq, c.o.tasks, c.o.isRunning⟩ names
        = runNames c.o names from rfl]
    exact hrn
  have hgoal : runApi names nf c =
      ⟨⟨nf || c.o.doneCallback, out, c.o.tasks, true⟩, [Frame.runStep],
        c.cbLive, c.promisePending, [], none⟩ := by
    unfold runApi
    rw [hrn1, hseq]
    rfl
  rw [hgoal]
  exact ⟨rfl, rfl, rfl⟩

/-- Witness for C7: a running orchestrator given an extra task name. -/
theorem C7_witness :
    runNames (⟨true, ["old"], [("new", ⟨"new", [], JVal.func ⟨0, none, none, false⟩, false, false⟩),
        ("old", ⟨"old", [], JVal.func ⟨0, none, none, false⟩, true, false⟩)], true⟩ : Orchestrator)
      ["new"] = ["new"] ++ ["old"] ∧
    (∀ out, sequence [("new", ⟨"new", [], JVal.func ⟨0, none, none, false⟩, false, false⟩),
        ("old", ⟨"old", [], JVal.func ⟨0, none, none, false⟩, true, false⟩)]
        (["new"] ++ ["old"]) = Except.ok out →
      (runApi ["new"] false ⟨⟨true, ["old"],
          [("new", ⟨"new", [], JVal.func ⟨0, none, none, false⟩, false, false⟩),
           ("old", ⟨"old", [], JVal.func ⟨0, none, none, false⟩, true, false⟩)], true⟩,
        [], [], [], [], none⟩).o.seq = out ∧
      (runApi ["new"] false ⟨⟨true, ["old"],
          [("new", ⟨"new", [], JVal.func ⟨0, none, none, false⟩, false, false⟩),
           ("old", ⟨"old", [], JVal.func ⟨0, none, none, false⟩, true, false⟩)], true⟩,
        [], [], [], [], none⟩).o.isRunning = true ∧
      (runApi ["new"] false ⟨⟨true, ["old"],
          [("new", ⟨"new", [], JVal.func ⟨0, none, none, false⟩, false, false⟩),
           ("old", ⟨"old", [], JVal.func ⟨0, none, none, false⟩, true, false⟩)], true⟩,
        [], [], [], [], none⟩).stack = [Frame.runStep]) :=
  C7_run_merges ⟨⟨true, ["old"],
      [("new", ⟨"new", [], JVal.func ⟨0, none, none, false⟩, false, false⟩),
       ("old", ⟨"old", [], JVal.func ⟨0, none, none, false⟩, true, false⟩)], true⟩,
    [], [], [], [], none⟩ ["new"] false (by decide) (by decide)

/-! ### Claim C2: correctness of the sequencer -/

/-- The registered task names, in insertion order. -/
def keysOf (tasks : List (String × Task)) : List String := tasks.map Prod.fst

/-- Transitive reachability through dependency edges, starting from a list of
    requested root names. -/
inductive ReachesFrom (tasks : List (String × Task)) (roots : List String) : String → Prop where
  | root {n : String} : n ∈ roots → ReachesFrom tasks roots n
  | dep {m d : String} {t : Task} :
      ReachesFrom tasks roots m → lookupT tasks m = some t → d ∈ t.dep →
      ReachesFrom tasks roots d

theorem ReachesFrom.mono (tasks : List (String × Task)) {roots1 roots2 : List String}
    {x : String} (h : ReachesFrom tasks roots1 x)
    (hsub : ∀ r, r ∈ roots1 → ReachesFrom tasks roots2 r) :
    ReachesFrom tasks roots2 x := by
  induction h with
  | root hr => exact hsub _ hr
  | dep hm hl hd ih => exact ReachesFrom.dep ih hl hd

/-- A well-formed sequencer accumulator: no duplicates, every member registered,
    and every dependency of a member an earlier member. -/
def GoodRes (tasks : List (String × Task)) (l : List String) : Prop :=
  l.Nodup ∧ ∀ n, n ∈ l → ∃ t, lookupT tasks n = some t ∧
    ∀ d, d ∈ t.dep → d ∈ l ∧ l.indexOf d < l.indexOf n

/-- Soundness of the depth-first expansion: a successful visit only appends, the
    accumulator invariant is preserved, every requested name is covered, every
    new member is reachable from the requested names, and no new member lies on
    the active expansion path. -/
theorem seqVisit_sound (tasks : List (String × Task)) :
    ∀ (fuel : Nat) (names results nest out : List String),
      seqVisit tasks fuel names results nest = Except.ok out →
      GoodRes tasks results →
      (∃ suf, out = results ++ suf) ∧ GoodRes tasks out ∧
      (∀ m, m ∈ names → m ∈ out) ∧
      (∀ x, x ∈ out → x ∈ results ∨ ReachesFrom tasks names x) ∧
      (∀ x, x ∈ out → x ∈ results ∨ x ∉ nest) := by
  intro fuel
  induction fuel with
  | zero =>
    intro names results nest out h
    exact absurd h (by simp [seqVisit])
  | succ fuel ih =>
    intro names results nest out h hres
    cases names with
    | nil =>
      have hro : results = out := by
        have h' : Except.ok (ε := Err) results = Except.ok out := h
        injection h'
      subst hro
      exact ⟨⟨[], by simp⟩, hres, by simp, fun x hx => Or.inl hx, fun x hx => Or.inl hx⟩
    | cons n rest =>
      simp only [seqVisit] at h
      by_cases hn : n ∈ results
      · rw [if_pos hn] at h
        rcases ih rest results nest out h hres with ⟨⟨suf, hsuf⟩, hgood, hcov, hback, hnst⟩
        refine ⟨⟨suf, hsuf⟩, hgood, ?_, ?_, hnst⟩
        · intro m hm
          rcases List.mem_cons.mp hm with hm | hm
          · subst hm; rw [hsuf]; exact List.mem_append_left _ hn
          · exact hcov m hm
        · intro x hx
          rcases hback x hx with hx1 | hx1
          · exact Or.inl hx1
          · exact Or.inr (hx1.mono tasks
              (fun r hr => ReachesFrom.root (List.mem_cons_of_mem _ hr)))
      · rw [if_neg hn] at h
        by_cases hnst0 : n ∈ nest
        · rw [if_pos hnst0] at h
          exact absurd h (by simp)
        · rw [if_neg hnst0] at h
          cases hlk : lookupT tasks n with
          | none => simp only [hlk] at h; exact absurd h (by simp)
          | some t =>
            simp only [hlk] at h
            cases hrec : seqVisit tasks fuel t.dep results (nest ++ [n]) with
            | error e => simp only [hrec] at h; exact absurd h (by simp)
            | ok results2 =>
              simp only [hrec] at h
              rcases ih t.dep results (nest ++ [n]) results2 hrec hres with
                ⟨⟨suf1, hsuf1⟩, hgood2, hcov2, hback2, hnst2⟩
              have hn2 : n ∉ results2 := by
                intro hmem
                rcases hnst2 n hmem with hc | hc
                · exact hn hc
                · exact hc (List.mem_append_right _ (List.mem_singleton_self n))
              have hgood2' : GoodRes tasks (results2 ++ [n]) := by
                constructor
                · rw [List.nodup_append]
                  exact ⟨hgood2.1, List.nodup_singleton n,
                    fun a ha hb => hn2 ((List.mem_singleton.mp hb) ▸ ha)⟩
                · intro x hx
                  rcases List.mem_append.mp hx with hx | hx
                  · rcases hgood2.2 x hx with ⟨t', hlt', hdeps⟩
                    refine ⟨t', hlt', fun d hd => ?_⟩
                    rcases hdeps d hd with ⟨hdm, hdi⟩
                    refine ⟨List.mem_append_left _ hdm, ?_⟩
                    rw [List.indexOf_append_of_mem hdm, List.indexOf_append_of_mem hx]
                    exact hdi
                  · have hx' : x = n := List.mem_singleton.mp hx
                    subst hx'
                    refine ⟨t, hlk, fun d hd => ?_⟩
                    have hdm : d ∈ results2 := hcov2 d hd
                    refine ⟨List.mem_append_left _ hdm, ?_⟩
                    rw [List.indexOf_append_of_mem hdm,
                      List.indexOf_append_of_not_mem hn2]
                    have h1 : List.indexOf d results2 < results2.length :=
                      List.indexOf_lt_length.mpr hdm
                    have h2 : List.indexOf x [x] = 0 := List.indexOf_cons_self x []
                    omega
              rcases ih rest (results2 ++ [n]) nest out h hgood2' with
                ⟨⟨suf2, hsuf2⟩, hgoodO, hcovO, hbackO, hnstO⟩
              have hmono : ∀ x, ReachesFrom tasks t.dep x →
                  ReachesFrom tasks (n :: rest) x := fun x hx =>
                hx.mono tasks (fun r hr =>
                  ReachesFrom.dep (ReachesFrom.root (List.mem_cons_self n rest)) hlk hr)
              refine ⟨⟨suf1 ++ [n] ++ suf2, by rw [hsuf2, hsuf1]; simp⟩, hgoodO, ?_, ?_, ?_⟩
              · intro m hm
                rcases List.mem_cons.mp hm with hm | hm
                · subst hm
                  rw [hsuf2]
                  exact List.mem_append_left _ (List.mem_append_right _
                    (List.mem_singleton_self m))
                · exact hcovO m hm
              · intro x hx
                rcases hbackO x hx with hx1 | hx1
                · rcases List.mem_append.mp hx1 with hx2 | hx2
                  · rcases hback2 x hx2 with hx3 | hx3
                    · exact Or.inl hx3
                    · exact Or.inr (hmono x hx3)
                  · have hx' : x = n := List.mem_singleton.mp hx2
                    subst hx'
                    exact Or.inr (ReachesFrom.root (List.mem_cons_self x rest))
                · exact Or.inr (hx1.mono tasks
                    (fun r hr => ReachesFrom.root (List.mem_cons_of_mem _ hr)))
              · intro x hx
                rcases hnstO x hx with hx1 | hx1
                · rcases List.mem_append.mp hx1 with hx2 | hx2
                  · rcases hnst2 x hx2 with hx3 | hx3
                    · exact Or.inl hx3
                    · exact Or.inr (fun hc => hx3 (List.mem_append_left _ hc))
                  · have hx' : x = n := List.mem_singleton.mp hx2
                    subst hx'
                    exact Or.inr hnst0
                · exact Or.inr hx1

/-- The longest registered dependency list bounds each dependency list. -/
theorem depLen_le_maxDepLen (tasks : List (String × Task)) (p : String × Task)
    (hp : p ∈ tasks) : p.2.dep.length ≤ maxDepLen tasks := by
  unfold maxDepLen
  induction tasks with
  | nil => cases hp
  | cons q rest ih =>
    rcases List.mem_cons.mp hp with hp | hp
    · subst hp
      simp only [List.map_cons, List.foldr_cons]
      exact le_max_left _ _
    · simp only [List.map_cons, List.foldr_cons]
      exact le_trans (ih hp) (le_max_right _ _)

/-- Totality of the depth-first expansion on acyclic, closed inputs: with a rank
    function witnessing acyclicity, every requested name registered and every
    dependency registered, the expansion returns an output (it hits neither the
    cycle error, nor the missing-name error, nor the fuel bound). -/
theorem seqVisit_total (tasks : List (String × Task)) (r : String → Nat)
    (hrank : ∀ p, p ∈ tasks → ∀ d, d ∈ p.2.dep → r d < r p.1)
    (hclosed : ∀ p, p ∈ tasks → ∀ d, d ∈ p.2.dep → d ∈ keysOf tasks) :
    ∀ (fuel : Nat) (names results nest : List String),
      (∀ m, m ∈ names → m ∈ keysOf tasks) →
      nest.Nodup → (∀ x, x ∈ nest → x ∈ keysOf tasks) →
      (∀ m, m ∈ names → ∀ x, x ∈ nest → r m < r x) →
      names.length + 1 + (tasks.length - nest.length) * (maxDepLen tasks + 1) ≤ fuel →
      ∃ out, seqVisit tasks fuel names results nest = Except.ok out := by
  intro fuel
  induction fuel with
  | zero =>
    intro names results nest _ _ _ _ hf
    omega
  | succ fuel ih =>
    intro names results nest hnames hnd hnsub hrk hf
    cases names with
    | nil => exact ⟨results, rfl⟩
    | cons n rest =>
      by_cases hn : n ∈ results
      · have hrest := ih rest results nest
          (fun m hm => hnames m (List.mem_cons_of_mem _ hm)) hnd hnsub
          (fun m hm => hrk m (List.mem_cons_of_mem _ hm))
          (by simp only [List.length_cons] at hf; omega)
        rcases hrest with ⟨out, hout⟩
        exact ⟨out, by simp only [seqVisit, if_pos hn]; exact hout⟩
      · have hnk : n ∈ keysOf tasks := hnames n (List.mem_cons_self n rest)
        rcases mem_keys_lookup tasks n hnk with ⟨t, hlk⟩
        have hnn : n ∉ nest := fun hx =>
          lt_irrefl (r n) (hrk n (List.mem_cons_self n rest) n hx)
        have htmem : (n, t) ∈ tasks := lookupT_mem _ _ _ hlk
        have hdep_k : ∀ d, d ∈ t.dep → d ∈ keysOf tasks :=
          fun d hd => hclosed (n, t) htmem d hd
        have hdep_r : ∀ m, m ∈ t.dep → ∀ x, x ∈ nest ++ [n] → r m < r x := by
          intro m hm x hx
          rcases List.mem_append.mp hx with hx | hx
          · exact lt_trans (hrank (n, t) htmem m hm)
              (hrk n (List.mem_cons_self n rest) x hx)
          · rw [List.mem_singleton.mp hx]
            exact hrank (n, t) htmem m hm
        have hnest' : (nest ++ [n]).Nodup := by
          rw [List.nodup_append]
          exact ⟨hnd, List.nodup_singleton n,
            fun a ha hb => hnn ((List.mem_singleton.mp hb) ▸ ha)⟩
        have hnsub' : ∀ x, x ∈ nest ++ [n] → x ∈ keysOf tasks := by
          intro x hx
          rcases List.mem_append.mp hx with hx | hx
          · exact hnsub x hx
          · rw [List.mem_singleton.mp hx]; exact hnk
        have hlen : nest.length + 1 ≤ tasks.length := by
          have h1 : (nest ++ [n]).length ≤ (keysOf tasks).length :=
            List.Subperm.length_le (List.subperm_of_subset hnest' hnsub')
          have h2 : (keysOf tasks).length = tasks.length := List.length_map _ _
          simp only [List.length_append, List.length_singleton] at h1
          omega
        have hD : t.dep.length ≤ maxDepLen tasks := depLen_le_maxDepLen tasks (n, t) htmem
        have hmul : (tasks.length - nest.length) * (maxDepLen tasks + 1) =
            (tasks.length - (nest.length + 1)) * (maxDepLen tasks + 1) +
              (maxDepLen tasks + 1) := by
          have h3 : tasks.length - nest.length = (tasks.length - (nest.length + 1)) + 1 := by
            omega
          rw [h3, Nat.succ_mul]
        have hfuel1 : t.dep.length + 1 +
            (tasks.length - (nest ++ [n]).length) * (maxDepLen tasks + 1) ≤ fuel := by
          simp only [List.length_append, List.length_singleton]
          simp only [List.length_cons] at hf
          omega
        rcases ih t.dep results (nest ++ [n]) hdep_k hnest' hnsub' hdep_r hfuel1 with
          ⟨res2, hres2⟩
        have hfuel2 : rest.length + 1 +
            (tasks.length - nest.length) * (maxDepLen tasks + 1) ≤ fuel := by
          simp only [List.length_cons] at hf
          omega
        rcases ih rest (res2 ++ [n]) nest
          (fun m hm => hnames m (List.mem_cons_of_mem _ hm)) hnd hnsub
          (fun m hm => hrk m (List.mem_cons_of_mem _ hm)) hfuel2 with ⟨out, hout⟩
        refine ⟨out, ?_⟩
        simp only [seqVisit, if_neg hn, if_neg hnn, hlk, hres2]
        exact hout

/-- C2: for every registry whose dependency graph is acyclic (witnessed by a
    rank function) and closed, and every list of requested registered names, the
    computed sequence exists and contains exactly the requested tasks and their
    transitive dependencies, each exactly once, with every task at a later
    position than each of its dependencies; and this is the sequence a run over
    those names stores.  The sequencer itself is modelled from the spec (section
    4.2), its file not being part of src/. -/
theorem C2_sequence_correct (tasks : List (String × Task)) (names : List String)
    (r : String → Nat)
    (hrank : ∀ p, p ∈ tasks → ∀ d, d ∈ p.2.dep → r d < r p.1)
    (hclosed : ∀ p, p ∈ tasks → ∀ d, d ∈ p.2.dep → d ∈ keysOf tasks)
    (hnames : ∀ n, n ∈ names → n ∈ keysOf tasks) :
    ∃ out, sequence tasks names = Except.ok out ∧
      out.Nodup ∧
      (∀ x, x ∈ out ↔ ReachesFrom tasks names x) ∧
      (∀ x t d, x ∈ out → lookupT tasks x = some t → d ∈ t.dep →
        d ∈ out ∧ out.indexOf d < out.indexOf x) ∧
      (∀ (c : Config) (nf : Bool), c.o.tasks = tasks → c.o.isRunning = false →
        names ≠ [] → (runApi names nf c).o.seq = out) := by
  have htot := seqVisit_total tasks r hrank hclosed
    (names.length + 1 + tasks.length * (maxDepLen tasks + 1)) names [] []
    hnames List.nodup_nil (by simp) (by simp) (by simp)
  rcases htot with ⟨out, hout⟩
  have hseq : sequence tasks names = Except.ok out := hout
  rcases seqVisit_sound tasks _ names [] [] out hout ⟨List.nodup_nil, by simp⟩ with
    ⟨_, hgood, hcov, hback, _⟩
  refine ⟨out, hseq, hgood.1, ?_, ?_, ?_⟩
  · intro x
    constructor
    · intro hx
      rcases hback x hx with hx1 | hx1
      · exact absurd hx1 (List.not_mem_nil x)
      · exact hx1
    · intro hx
      induction hx with
      | root hr => exact hcov _ hr
      | dep hm hlk hd ihm =>
        rcases hgood.2 _ ihm with ⟨t', hlt', hdeps⟩
        rw [hlk] at hlt'
        injection hlt' with ht
        exact (hdeps _ (ht ▸ hd)).1
  · intro x t d hx hlt hd
    rcases hgood.2 x hx with ⟨t', hlt', hdeps⟩
    rw [hlt] at hlt'
    injection hlt' with ht
    exact hdeps d (ht ▸ hd)
  · intro c nf hct hcr hne
    have hrn : runNames ⟨nf || c.o.doneCallback, c.o.seq, c.o.tasks, c.o.isRunning⟩ names
        = names := by
      rw [show runNames ⟨nf || c.o.doneCallback, c.o.seq, c.o.tasks, c.o.isRunning⟩ names
          = runNames c.o names from rfl]
      simp [runNames, hcr, List.isEmpty_iff, hne]
    show (runFinish c (nf || c.o.doneCallback)
        (sequence c.o.tasks (runNames ⟨nf || c.o.doneCallback, c.o.seq, c.o.tasks,
          c.o.isRunning⟩ names))).o.seq = out
    rw [hrn, hct, hseq]
    rfl

/-- Witness for C2: a two-task registry with one dependency edge. -/
theorem C2_witness :
    ∃ out, sequence [("a", ⟨"a", [], JVal.func ⟨0, none, none, false⟩, false, false⟩),
        ("b", ⟨"b", ["a"], JVal.func ⟨0, none, none, false⟩, false, false⟩)] ["b"]
        = Except.ok out ∧
      out.Nodup ∧
      (∀ x, x ∈ out ↔ ReachesFrom [("a", ⟨"a", [], JVal.func ⟨0, none, none, false⟩, false, false⟩),
        ("b", ⟨"b", ["a"], JVal.func ⟨0, none, none, false⟩, false, false⟩)] ["b"] x) ∧
      (∀ x t d, x ∈ out →
        lookupT [("a", ⟨"a", [], JVal.func ⟨0, none, none, false⟩, false, false⟩),
          ("b", ⟨"b", ["a"], JVal.func ⟨0, none, none, false⟩, false, false⟩)] x = some t →
        d ∈ t.dep → d ∈ out ∧ out.indexOf d < out.indexOf x) ∧
      (∀ (c : Config) (nf : Bool),
        c.o.tasks = [("a", ⟨"a", [], JVal.func ⟨0, none, none, false⟩, false, false⟩),
          ("b", ⟨"b", ["a"], JVal.func ⟨0, none, none, false⟩, false, false⟩)] →
        c.o.isRunning = false → ["b"] ≠ [] →
        (runApi ["b"] nf c).o.seq = out) :=
  C2_sequence_correct
    [("a", ⟨"a", [], JVal.func ⟨0, none, none, false⟩, false, false⟩),
     ("b", ⟨"b", ["a"], JVal.func ⟨0, none, none, false⟩, false, false⟩)] ["b"]
    (fun n => if n = "b" then 1 else 0)
    (by decide) (by decide) (by decide)

/-! ### Claim C9 -/

theorem allDoneScan_true (ts : List (String × Task)) (l : List String)
    (h : ∀ n, n ∈ l → ∃ t, lookupT ts n = some t ∧ t.done = true) :
    allDoneScan ts l = some true := by
  induction l with
  | nil => rfl
  | cons n rest ih =>
    obtain ⟨t, hlk, hd⟩ := h n (List.mem_cons_self n rest)
    have hrest := ih (fun m hm => h m (List.mem_cons_of_mem _ hm))
    simp [allDoneScan, hlk, hd, hrest]

/-- A sequence whose every task is already done is scanned without starting any
    executor, and the scan ends in the successful stop of lines 119-121. -/
theorem scan_allDone (m : Nat) :
    ∀ (o : Orchestrator) (cbl pp : List String) (tr : List TEvent) (i : Nat),
      o.isRunning = true →
      (∀ n, n ∈ o.seq → ∃ t, lookupT o.tasks n = some t ∧ t.done = true) →
      o.seq.length ≤ i + m →
      stepN (2 * m + 2) ⟨o, [Frame.scan i], cbl, pp, tr, none⟩ =
        stopFn none true ⟨o, [], cbl, pp, tr, none⟩ := by
  induction m with
  | zero =>
    intro o cbl pp tr i hrun hdone hlen
    have hget : o.seq.get? i = none := List.get?_eq_none.mpr (by omega)
    have hget2 : o.seq[i]? = none := by
      rw [← List.get?_eq_getElem?]
      exact hget
    have h1 : step ⟨o, [Frame.scan i], cbl, pp, tr, none⟩ =
        ⟨o, [Frame.endScan], cbl, pp, tr, none⟩ := by
      simp [step, stepFrame, hget2]
    have halld : allDoneScan o.tasks o.seq = some true := allDoneScan_true _ _ hdone
    have h2 : step ⟨o, [Frame.endScan], cbl, pp, tr, none⟩ =
        stopFn none true ⟨o, [], cbl, pp, tr, none⟩ := by
      simp [step, stepFrame, halld]
    show step (step ⟨o, [Frame.scan i], cbl, pp, tr, none⟩) = _
    rw [h1, h2]
  | succ m ih =>
    intro o cbl pp tr i hrun hdone hlen
    have hsplit : 2 * (m + 1) + 2 = 2 + (2 * m + 2) := by omega
    by_cases hi : i < o.seq.length
    · cases hn : o.seq.get? i with
      | none =>
        exact absurd (List.get?_eq_none.mp hn) (by omega)
      | some n =>
        obtain ⟨t, hlk, hdn⟩ := hdone n (List.get?_mem hn)
        have hn2 : o.seq[i]? = some n := by
          rw [← List.get?_eq_getElem?]
          exact hn
        have h1 : step ⟨o, [Frame.scan i], cbl, pp, tr, none⟩ =
            ⟨o, [Frame.afterTask i], cbl, pp, tr, none⟩ := by
          simp [step, stepFrame, hn2, hlk, hdn]
        have h2 : step ⟨o, [Frame.afterTask i], cbl, pp, tr, none⟩ =
            ⟨o, [Frame.scan (i + 1)], cbl, pp, tr, none⟩ := by
          simp [step, stepFrame, hrun]
        rw [hsplit, stepN_add,
          show stepN 2 ⟨o, [Frame.scan i], cbl, pp, tr, none⟩ =
            step (step ⟨o, [Frame.scan i], cbl, pp, tr, none⟩) from rfl, h1, h2]
        exact ih o cbl pp tr (i + 1) hrun hdone (by omega)
    · have hget : o.seq.get? i = none := List.get?_eq_none.mpr (by omega)
      have hget2 : o.seq[i]? = none := by
        rw [← List.get?_eq_getElem?]
        exact hget
      have h1 : step ⟨o, [Frame.scan i], cbl, pp, tr, none⟩ =
          ⟨o, [Frame.endScan], cbl, pp, tr, none⟩ := by
        simp [step, stepFrame, hget2]
      have halld : allDoneScan o.tasks o.seq = some true := allDoneScan_true _ _ hdone
      have h2 : step ⟨o, [Frame.endScan], cbl, pp, tr, none⟩ =
          stopFn none true ⟨o, [], cbl, pp, tr, none⟩ := by
        simp [step, stepFrame, halld]
      rw [hsplit, stepN_add,
        show stepN 2 ⟨o, [Frame.scan i], cbl, pp, tr, none⟩ =
          step (step ⟨o, [Frame.scan i], cbl, pp, tr, none⟩) from rfl, h1, h2]
      exact stepN_quiescent _ _
        ((stopFn_spec none true ⟨o, [], cbl, pp, tr, none⟩).2.2.2.1.trans rfl)

/-- C9: per-task run-state is never cleared by run.  If every task of the newly
    computed sequence is already done, running again starts no executor and the
    machine immediately stops successfully, firing a registered notifier with no
    error; a task's done flag is reset only by re-registering it through add
    (which stores fresh falsy run-state flags) or by reset (which discards the
    whole registry). -/
theorem C9_rerun_done (c : Config) (names : List String) (nf : Bool) (out : List String)
    (hseq : sequence c.o.tasks
      (runNames ⟨nf || c.o.doneCallback, c.o.seq, c.o.tasks, c.o.isRunning⟩ names)
      = Except.ok out)
    (hdone : ∀ n, n ∈ out → ∃ t, lookupT c.o.tasks n = some t ∧ t.done = true) :
    startedOf (stepN (2 * out.length + 3) (runApi names nf c)).trace = [] ∧
    (stepN (2 * out.length + 3) (runApi names nf c)).o.isRunning = false ∧
    (stepN (2 * out.length + 3) (runApi names nf c)).stack = [] ∧
    ((nf || c.o.doneCallback) = true →
      (stepN (2 * out.length + 3) (runApi names nf c)).trace = [TEvent.notified none]) ∧
    ((nf || c.o.doneCallback) = false →
      (stepN (2 * out.length + 3) (runApi names nf c)).trace = []) ∧
    (∀ (name : Option String) (dep : Option (List String)) (fn : JVal)
        (o o' : Orchestrator) (nm : String), addFn name dep fn o = Except.ok o' →
      name = some nm →
      ∃ t, lookupT o'.tasks nm = some t ∧ t.done = false ∧ t.running = false) ∧
    (resetFn c).o.tasks = [] := by
  have hra : runApi names nf c =
      ⟨⟨nf || c.o.doneCallback, out, c.o.tasks, true⟩, [Frame.runStep],
        c.cbLive, c.promisePending, [], none⟩ := by
    unfold runApi
    rw [hseq]
    rfl
  have h1 : step ⟨⟨nf || c.o.doneCallback, out, c.o.tasks, true⟩, [Frame.runStep],
      c.cbLive, c.promisePending, [], none⟩ =
      ⟨⟨nf || c.o.doneCallback, out, c.o.tasks, true⟩, [Frame.scan 0],
        c.cbLive, c.promisePending, [], none⟩ := by
    simp [step, stepFrame]
  have hscan := scan_allDone out.length
    ⟨nf || c.o.doneCallback, out, c.o.tasks, true⟩ c.cbLive c.promisePending [] 0
    rfl hdone (by show out.length ≤ 0 + out.length; omega)
  have hall : stepN (2 * out.length + 3) (runApi names nf c) =
      stopFn none true ⟨⟨nf || c.o.doneCallback, out, c.o.tasks, true⟩, [],
        c.cbLive, c.promisePending, [], none⟩ := by
    rw [hra, show 2 * out.length + 3 = 1 + (2 * out.length + 2) from by omega, stepN_add,
      show stepN 1 ⟨⟨nf || c.o.doneCallback, out, c.o.tasks, true⟩, [Frame.runStep],
        c.cbLive, c.promisePending, [], none⟩ =
        step ⟨⟨nf || c.o.doneCallback, out, c.o.tasks, true⟩, [Frame.runStep],
          c.cbLive, c.promisePending, [], none⟩ from rfl, h1, hscan]
  rw [hall]
  have hstop := stopFn_spec none true
    ⟨⟨nf || c.o.doneCallback, out, c.o.tasks, true⟩, [],
      c.cbLive, c.promisePending, [], none⟩
  refine ⟨?_, hstop.1, hstop.2.2.2.1, ?_, ?_, ?_, rfl⟩
  · rw [hstop.2.2.2.2.2.2.2.2]
    by_cases hdc : (nf || c.o.doneCallback) = true
    · simp only [show (Config.mk ⟨nf || c.o.doneCallback, out, c.o.tasks, true⟩ []
          c.cbLive c.promisePending [] none).o.doneCallback = (nf || c.o.doneCallback)
          from rfl, hdc, if_true]
      simp [startedOf]
    · simp only [show (Config.mk ⟨nf || c.o.doneCallback, out, c.o.tasks, true⟩ []
          c.cbLive c.promisePending [] none).o.doneCallback = (nf || c.o.doneCallback)
          from rfl, hdc]
      simp [startedOf]
  · intro hdc
    rw [hstop.2.2.2.2.2.2.2.2]
    simp only [show (Config.mk ⟨nf || c.o.doneCallback, out, c.o.tasks, true⟩ []
        c.cbLive c.promisePending [] none).o.doneCallback = (nf || c.o.doneCallback)
        from rfl, hdc, if_true]
    rfl
  · intro hdc
    rw [hstop.2.2.2.2.2.2.2.2]
    simp only [show (Config.mk ⟨nf || c.o.doneCallback, out, c.o.tasks, true⟩ []
        c.cbLive c.promisePending [] none).o.doneCallback = (nf || c.o.doneCallback)
        from rfl, hdc]
    rfl
  · intro name dep fn o o' nm hadd hnm
    subst hnm
    simp only [addFn] at hadd
    by_cases hcond : (nm == "" || !(storedTask nm dep fn).fn.truthy) = true
    · rw [if_pos hcond] at hadd
      exact absurd hadd (by simp)
    · rw [if_neg hcond] at hadd
      injection hadd with hadd'
      rw [← hadd']
      exact ⟨storedTask nm dep fn, lookupT_upsertT_self _ _ _, rfl, rfl⟩

/-- Witness for C9: an orchestrator whose single task already finished, run
    again over the same name. -/
theorem C9_witness :
    startedOf (stepN (2 * ["a"].length + 3) (runApi ["a"] false
      (initConfig ⟨true, ["a"],
        [("a", ⟨"a", [], JVal.func ⟨0, none, none, false⟩, true, false⟩)], false⟩))).trace
      = [] ∧
    (stepN (2 * ["a"].length + 3) (runApi ["a"] false
      (initConfig ⟨true, ["a"],
        [("a", ⟨"a", [], JVal.func ⟨0, none, none, false⟩, true, false⟩)], false⟩))).o.isRunning
      = false ∧
    (stepN (2 * ["a"].length + 3) (runApi ["a"] false
      (initConfig ⟨true, ["a"],
        [("a", ⟨"a", [], JVal.func ⟨0, none, none, false⟩, true, false⟩)], false⟩))).stack
      = [] ∧
    ((false || true) = true →
      (stepN (2 * ["a"].length + 3) (runApi ["a"] false
        (initConfig ⟨true, ["a"],
          [("a", ⟨"a", [], JVal.func ⟨0, none, none, false⟩, true, false⟩)], false⟩))).trace
        = [TEvent.notified none]) ∧
    ((false || true) = false →
      (stepN (2 * ["a"].length + 3) (runApi ["a"] false
        (initConfig ⟨true, ["a"],
          [("a", ⟨"a", [], JVal.func ⟨0, none, none, false⟩, true, false⟩)], false⟩))).trace
        = []) ∧
    (∀ (name : Option String) (dep : Option (List String)) (fn : JVal)
        (o o' : Orchestrator) (nm : String), addFn name dep fn o = Except.ok o' →
      name = some nm →
      ∃ t, lookupT o'.tasks nm = some t ∧ t.done = false ∧ t.running = false) ∧
    (resetFn (initConfig ⟨true, ["a"],
      [("a", ⟨"a", [], JVal.func ⟨0, none, none, false⟩, true, false⟩)], false⟩)).o.tasks
      = [] :=
  C9_rerun_done
    (initConfig ⟨true, ["a"],
      [("a", ⟨"a", [], JVal.func ⟨0, none, none, false⟩, true, false⟩)], false⟩)
    ["a"] false ["a"] (by decide)
    (fun n hn => by
      rw [List.mem_singleton.mp hn]
      exact ⟨⟨"a", [], JVal.func ⟨0, none, none, false⟩, true, false⟩, rfl, rfl⟩)

/-! ### Machine invariants for claims C1 and C3

The scheduler machine maintains a stack invariant: whenever the scan of
_runStep is at index i, every eligible task at an earlier index is either
ineligible or guaranteed to be re-examined by a full rescan pending above the
suspended frame.  From this, starts respect sequence order. -/

/-- The sequence indices a frame guarantees to rescan before control returns
    below it (assuming the run is not aborted): a _runStep entry or a
    no-error completion handler rescans everything; a suspended scan loop
    rescans from its index on. -/
def covers (ts : List (String × Task)) (f : Frame) (j : Nat) : Prop :=
  match f with
  | Frame.runStep => True
  | Frame.scan i => i ≤ j
  | Frame.afterTask i => i + 1 ≤ j
  | Frame.endScan => False
  | Frame.execFn n => ∃ t e, lookupT ts n = some t ∧ t.fn = JVal.func e ∧
      e.syncCb = some none
  | Frame.afterFn _ => False
  | Frame.cbBody _ err => err = none
  | Frame.resolveBody _ => True
  | Frame.rejectBody _ _ => False

/-- The per-frame obligation: a scan frame at index i has already handled all
    earlier indices, so any eligible earlier task must be covered by a pending
    rescan above. -/
def frameOb (o : Orchestrator) (f : Frame) (cov : Nat → Prop) : Prop :=
  match f with
  | Frame.scan i => ∀ j, j < i → eligAt o j → cov j
  | Frame.afterTask i => ∀ j, j ≤ i → eligAt o j → cov j
  | _ => True

/-- The stack invariant, walking the stack top-down and accumulating the
    indices covered by the frames above. -/
def StackInv (o : Orchestrator) : List Frame → (Nat → Prop) → Prop
  | [], _ => True
  | f :: rest, cov => frameOb o f cov ∧ StackInv o rest (fun j => cov j ∨ covers o.tasks f j)

/-- The stored sequence is well formed: no duplicates, every name registered,
    every dependency of a sequence member an earlier sequence member. -/
def SeqOK (o : Orchestrator) : Prop :=
  o.seq.Nodup ∧
  (∀ n, n ∈ o.seq → ∃ t, lookupT o.tasks n = some t) ∧
  (∀ n t d, n ∈ o.seq → lookupT o.tasks n = some t → d ∈ t.dep →
    d ∈ o.seq ∧ o.seq.indexOf d < o.seq.indexOf n)

/-- Every stored executor value is truthy (add never stores a falsy one), so
    reading task.fn.length cannot itself throw. -/
def TasksWF (o : Orchestrator) : Prop :=
  ∀ p, p ∈ o.tasks → p.2.fn ≠ JVal.undef

/-- Scan-loop frames live only at the top of the stack: a suspended activation
    always rests at its afterTask continuation. -/
def NoScanFrames : List Frame → Prop
  | [] => True
  | f :: rest => (∀ i, f ≠ Frame.scan i) ∧ f ≠ Frame.endScan ∧ NoScanFrames rest

def ScanTopOnly : List Frame → Prop
  | [] => True
  | _ :: rest => NoScanFrames rest

/-- A scan-loop frame at the top implies the run is active (it was created
    behind the isRunning checks of lines 107 and 115, and nothing can run
    between its creation and its execution). -/
def TopRunOK (c : Config) : Prop :=
  ∀ f, c.stack.head? = some f → ((∃ i, f = Frame.scan i) ∨ f = Frame.endScan) →
    c.o.isRunning = true

/-- The frames of a task body sit directly above the afterTask continuation of
    the scan position that started the task. -/
def ShapeOK (o : Orchestrator) : List Frame → Prop
  | [] => True
  | Frame.execFn n :: rest =>
      (∃ i, rest.head? = some (Frame.afterTask i) ∧ o.seq.get? i = some n) ∧ ShapeOK o rest
  | Frame.afterFn n :: rest =>
      (∃ i, rest.head? = some (Frame.afterTask i) ∧ o.seq.get? i = some n) ∧ ShapeOK o rest
  | _ :: rest => ShapeOK o rest

def notifiedCount (tr : List TEvent) : Nat := (notifiedOf tr).length

/-- Notifier bookkeeping: while a notifier is registered nothing has been
    notified in this run, and the notifier fires at most once per run. -/
def NotifyOK (c : Config) : Prop :=
  (c.o.doneCallback = true → notifiedCount c.trace = 0) ∧ notifiedCount c.trace ≤ 1

/-- The master machine invariant.  The stored sequence is only guaranteed well
    formed while the run is active (an aborted run keeps whatever sequence it
    had, but the machine then starts nothing and never rescans). -/
def Inv (c : Config) : Prop :=
  c.exn = none ∧
  (c.o.isRunning = true → SeqOK c.o) ∧
  TasksWF c.o ∧
  ScanTopOnly c.stack ∧
  TopRunOK c ∧
  ShapeOK c.o c.stack ∧
  (c.o.isRunning = true → StackInv c.o c.stack (fun _ => False)) ∧
  NotifyOK c

/-- Machine reachability: interleavings of machine steps and valid completion
    deliveries. -/
inductive Reach : Config → Config → Prop where
  | refl (c : Config) : Reach c c
  | tail {a b : Config} : Reach a b → Reach a (step b)
  | ev {a b : Config} (e : Event) : Reach a b → Reach a (deliver e b)

/-- A configuration produced by a call to run on a well-formed registry. -/
def InitialRun (c : Config) : Prop :=
  ∃ names nf c0, TasksWF c0.o ∧ c = runApi names nf c0

/-! ### Helper lemmas for the invariant proof  -/

theorem notifiedOf_append (a b : List TEvent) :
    notifiedOf (a ++ b) = notifiedOf a ++ notifiedOf b :=
  List.filterMap_append a b _

theorem startedOf_append (a b : List TEvent) :
    startedOf (a ++ b) = startedOf a ++ startedOf b :=
  List.filterMap_append a b _

theorem notifiedCount_append (a b : List TEvent) :
    notifiedCount (a ++ b) = notifiedCount a + notifiedCount b := by
  unfold notifiedCount
  rw [notifiedOf_append, List.length_append]

theorem StackInv_full (o : Orchestrator) (rest : List Frame) (cov : Nat → Prop)
    (h : ∀ j, cov j) : StackInv o rest cov := by
  induction rest generalizing cov with
  | nil => trivial
  | cons f frest ih =>
    refine ⟨?_, ih _ (fun j => Or.inl (h j))⟩
    cases f
    case scan i => exact fun j _ _ => h j
    case afterTask i => exact fun j _ _ => h j
    all_goals trivial

theorem StackInv_adapt (o o' : Orchestrator) (esc : Nat → Prop)
    (hcov : ∀ f j, covers o.tasks f j → covers o'.tasks f j)
    (helig : ∀ j, eligAt o' j → eligAt o j ∨ esc j) :
    ∀ (rest : List Frame) (cov cov' : Nat → Prop),
      (∀ j, eligAt o' j → cov j → cov' j) → (∀ j, esc j → cov' j) →
      StackInv o rest cov → StackInv o' rest cov' := by
  intro rest
  induction rest with
  | nil => intro _ _ _ _ _; trivial
  | cons f frest ih =>
    intro cov cov' hmono hesc hsi
    refine ⟨?_, ih (fun j => cov j ∨ covers o.tasks f j)
      (fun j => cov' j ∨ covers o'.tasks f j)
      (fun j hel hj =>
        hj.elim (fun h1 => Or.inl (hmono j hel h1)) (fun h1 => Or.inr (hcov f j h1)))
      (fun j hj => Or.inl (hesc j hj)) hsi.2⟩
    have hob := hsi.1
    cases f
    case scan i =>
      intro j hji hel
      rcases helig j hel with he | he
      · exact hmono j hel (hob j hji he)
      · exact hesc j he
    case afterTask i =>
      intro j hji hel
      rcases helig j hel with he | he
      · exact hmono j hel (hob j hji he)
      · exact hesc j he
    all_goals trivial

theorem lookupT_updTask (ts : List (String × Task)) (n m : String) (f : Task → Task) :
    lookupT (updTask ts n f) m =
      if m = n then (lookupT ts m).map f else lookupT ts m := by
  by_cases hm : m = n
  · rw [if_pos hm, hm]
    exact lookupT_updTask_self ts n f
  · rw [if_neg hm]
    exact lookupT_updTask_ne ts n m f hm

theorem depsDoneB_upd (ts : List (String × Task)) (n : String) (f : Task → Task)
    (hf : ∀ u, (f u).done = u.done) (dep : List String) :
    depsDoneB (updTask ts n f) dep = depsDoneB ts dep := by
  induction dep with
  | nil => rfl
  | cons d rest ih =>
    show ((match lookupT (updTask ts n f) d with
        | some td => td.done | none => false) && depsDoneB (updTask ts n f) rest)
      = ((match lookupT ts d with | some td => td.done | none => false) && depsDoneB ts rest)
    rw [ih, lookupT_updTask]
    by_cases hd : d = n
    · rw [if_pos hd]
      cases lookupT ts d with
      | none => rfl
      | some t =>
        show ((f t).done && depsDoneB ts rest) = (t.done && depsDoneB ts rest)
        rw [hf t]
    · rw [if_neg hd]

theorem depsDoneB_upd_notmem (ts : List (String × Task)) (n : String) (f : Task → Task)
    (dep : List String) (h : n ∉ dep) :
    depsDoneB (updTask ts n f) dep = depsDoneB ts dep := by
  induction dep with
  | nil => rfl
  | cons d rest ih =>
    have hd : ¬ d = n := fun he => h (he ▸ List.mem_cons_self d rest)
    show ((match lookupT (updTask ts n f) d with
        | some td => td.done | none => false) && depsDoneB (updTask ts n f) rest)
      = ((match lookupT ts d with | some td => td.done | none => false) && depsDoneB ts rest)
    rw [ih (fun hm => h (List.mem_cons_of_mem _ hm)), lookupT_updTask, if_neg hd]

/-- Setting a running flag only removes eligibility. -/
theorem eligAt_upd_run (o : Orchestrator) (n : String) (j : Nat) :
    eligAt ⟨o.doneCallback, o.seq,
      updTask o.tasks n (fun u => { u with running := true }), o.isRunning⟩ j →
    eligAt o j := by
  rintro ⟨m, hget, hel⟩
  refine ⟨m, hget, ?_⟩
  unfold eligible at hel ⊢
  rw [show (Orchestrator.mk o.doneCallback o.seq
      (updTask o.tasks n (fun u => { u with running := true })) o.isRunning).tasks
      = updTask o.tasks n (fun u => { u with running := true }) from rfl,
    lookupT_updTask] at hel
  by_cases hm : m = n
  · rw [if_pos hm] at hel
    cases hl : lookupT o.tasks m with
    | none => simp [hl] at hel
    | some t => simp [hl] at hel
  · rw [if_neg hm] at hel
    cases hl : lookupT o.tasks m with
    | none => simp [hl] at hel
    | some t =>
      simp only [hl] at hel
      rw [depsDoneB_upd o.tasks n (fun u => { u with running := true })
        (fun u => rfl) t.dep] at hel
      exact hel

/-- Marking a task done creates eligibility only at its dependents. -/
theorem eligAt_markDone (o : Orchestrator) (n : String) (j : Nat) :
    eligAt ⟨o.doneCallback, o.seq,
      updTask o.tasks n (fun u => { u with running := false, done := true }), o.isRunning⟩ j →
    eligAt o j ∨ (∃ m t, o.seq.get? j = some m ∧ lookupT o.tasks m = some t ∧ n ∈ t.dep) := by
  rintro ⟨m, hget, hel⟩
  unfold eligible at hel
  rw [show (Orchestrator.mk o.doneCallback o.seq
      (updTask o.tasks n (fun u => { u with running := false, done := true })) o.isRunning).tasks
      = updTask o.tasks n (fun u => { u with running := false, done := true }) from rfl,
    lookupT_updTask] at hel
  by_cases hm : m = n
  · rw [if_pos hm] at hel
    cases hl : lookupT o.tasks m with
    | none => simp [hl] at hel
    | some t => simp [hl] at hel
  · rw [if_neg hm] at hel
    cases hl : lookupT o.tasks m with
    | none => simp [hl] at hel
    | some t =>
      simp only [hl] at hel
      by_cases hdep : n ∈ t.dep
      · exact Or.inr ⟨m, t, hget, hl, hdep⟩
      · refine Or.inl ⟨m, hget, ?_⟩
        unfold eligible
        rw [hl]
        rw [depsDoneB_upd_notmem o.tasks n _ t.dep hdep] at hel
        exact hel

/-- Flag updates do not change which frames promise rescans. -/
theorem covers_upd (ts : List (String × Task)) (x : String) (f : Task → Task)
    (hf : ∀ u, (f u).fn = u.fn) (fr : Frame) (j : Nat) :
    covers (updTask ts x f) fr j → covers ts fr j := by
  cases fr
  case execFn n =>
    rintro ⟨t, e, hlt, hfn, hcb⟩
    rw [lookupT_updTask] at hlt
    by_cases hn : n = x
    · rw [if_pos hn] at hlt
      cases hl : lookupT ts n with
      | none => rw [hl] at hlt; exact absurd hlt (by simp)
      | some u =>
        rw [hl] at hlt
        simp only [Option.map_some'] at hlt
        injection hlt with hu
        refine ⟨u, e, hl, ?_, hcb⟩
        rw [← hf u, hu, hfn]
    · rw [if_neg hn] at hlt
      exact ⟨t, e, hlt, hfn, hcb⟩
  all_goals exact id

/-- A ready verdict means every dependency is present and done. -/
theorem readyScan_go (ts : List (String × Task)) (nm : String) :
    ∀ dep : List String, readyScan ts nm dep = Ready.go →
      ∀ d, d ∈ dep → ∃ td, lookupT ts d = some td ∧ td.done = true := by
  intro dep
  induction dep with
  | nil => intro _ d hd; cases hd
  | cons d rest ih =>
    intro h e he
    cases hlk : lookupT ts d with
    | none => simp [readyScan, hlk] at h
    | some t =>
      by_cases hdn : t.done = true
      · have hr : readyScan ts nm (d :: rest) = readyScan ts nm rest := by
          simp [readyScan, hlk, hdn]
        rw [hr] at h
        rcases List.mem_cons.mp he with he | he
        · subst he; exact ⟨t, hlk, hdn⟩
        · exact ih h e he
      · simp [readyScan, hlk, hdn] at h

theorem nodup_indexOf_eq (l : List String) (hl : l.Nodup) :
    ∀ (i : Nat) (n : String), l.get? i = some n → l.indexOf n = i := by
  induction l with
  | nil => intro i n h; simp at h
  | cons a rest ih =>
    intro i n h
    cases i with
    | zero =>
      have hn : a = n := by simpa using h
      subst hn
      exact List.indexOf_cons_self a rest
    | succ i =>
      have h' : rest.get? i = some n := by simpa using h
      have hmem : n ∈ rest := List.get?_mem h'
      have hna : a ≠ n := by
        rintro rfl
        exact (List.nodup_cons.mp hl).1 hmem
      rw [List.indexOf_cons_ne _ hna, ih (List.nodup_cons.mp hl).2 i n h']

theorem ScanTopOnly_of_noscan (st : List Frame) (h : NoScanFrames st) :
    ScanTopOnly st := by
  cases st with
  | nil => trivial
  | cons f r => exact h.2.2

theorem NoScanFrames_head_not_scan (f : Frame) (r : List Frame)
    (h : NoScanFrames (f :: r)) : (∀ i, f ≠ Frame.scan i) ∧ f ≠ Frame.endScan :=
  ⟨h.1, h.2.1⟩

theorem TopRunOK_of_noscan (c' : Config) (h : NoScanFrames c'.stack) : TopRunOK c' := by
  intro f hf hsc
  cases hs : c'.stack with
  | nil => rw [hs] at hf; cases hf
  | cons f0 r =>
    rw [hs] at hf h
    have hf0 : f0 = f := by injection hf
    rcases hsc with ⟨i, hi⟩ | hi
    · exact absurd (hf0.trans hi) (h.1 i)
    · exact absurd (hf0.trans hi) (h.2.1)

theorem ShapeOK_tail (o : Orchestrator) (f : Frame) (rest : List Frame)
    (h : ShapeOK o (f :: rest)) : ShapeOK o rest := by
  cases f
  case execFn n => exact h.2
  case afterFn n => exact h.2
  all_goals exact h

theorem SeqOK_congr (o o' : Orchestrator) (hs : o'.seq = o.seq) (ht : o'.tasks = o.tasks)
    (h : SeqOK o) : SeqOK o' := by
  unfold SeqOK at h ⊢
  rw [hs, ht]
  exact h

theorem TasksWF_congr (o o' : Orchestrator) (ht : o'.tasks = o.tasks)
    (h : TasksWF o) : TasksWF o' := by
  unfold TasksWF at h ⊢
  rw [ht]
  exact h

theorem ShapeOK_congr (o o' : Orchestrator) (hs : o'.seq = o.seq) :
    ∀ st, ShapeOK o st → ShapeOK o' st := by
  intro st
  induction st with
  | nil => exact fun _ => trivial
  | cons f rest ih =>
    intro h
    cases f
    case execFn n =>
      rcases h with ⟨⟨i, hh, hg⟩, h2⟩
      exact ⟨⟨i, hh, by rw [hs]; exact hg⟩, ih h2⟩
    case afterFn n =>
      rcases h with ⟨⟨i, hh, hg⟩, h2⟩
      exact ⟨⟨i, hh, by rw [hs]; exact hg⟩, ih h2⟩
    all_goals exact ih h

theorem lookupT_updTask_inv (ts : List (String × Task)) (x n : String) (f : Task → Task)
    (t : Task) (h : lookupT (updTask ts x f) n = some t) :
    ∃ u, lookupT ts n = some u ∧ (t = u ∨ t = f u) := by
  rw [lookupT_updTask] at h
  by_cases hx : n = x
  · rw [if_pos hx] at h
    cases hl : lookupT ts n with
    | none => rw [hl] at h; cases h
    | some u =>
      rw [hl] at h
      simp only [Option.map_some'] at h
      injection h with h'
      exact ⟨u, rfl, Or.inr h'.symm⟩
  · rw [if_neg hx] at h
    exact ⟨t, h, Or.inl rfl⟩

theorem SeqOK_upd (o : Orchestrator) (dc ir : Bool) (x : String) (f : Task → Task)
    (hf : ∀ u, (f u).dep = u.dep) (h : SeqOK o) :
    SeqOK ⟨dc, o.seq, updTask o.tasks x f, ir⟩ := by
  obtain ⟨h1, h2, h3⟩ := h
  refine ⟨h1, ?_, ?_⟩
  · intro n hn
    rcases h2 n hn with ⟨t, ht⟩
    refine ⟨if n = x then f t else t, ?_⟩
    show lookupT (updTask o.tasks x f) n = _
    rw [lookupT_updTask, ht]
    by_cases hx : n = x
    · rw [if_pos hx, if_pos hx]; rfl
    · rw [if_neg hx, if_neg hx]
  · intro n t d hn hlt hd
    rcases lookupT_updTask_inv o.tasks x n f t hlt with ⟨u, hu, hcase⟩
    have hdep : d ∈ u.dep := by
      rcases hcase with hc | hc
      · rw [← hc]; exact hd
      · rw [← hf u, ← hc]; exact hd
    exact h3 n u d hn hu hdep

theorem updTask_mem_inv (ts : List (String × Task)) (x : String) (f : Task → Task)
    (p : String × Task) (hp : p ∈ updTask ts x f) :
    ∃ q, q ∈ ts ∧ (p = q ∨ p = (q.1, f q.2)) := by
  rcases List.mem_map.mp hp with ⟨q, hq, hgq⟩
  by_cases hqx : q.1 = x
  · rw [if_pos hqx] at hgq
    exact ⟨q, hq, Or.inr hgq.symm⟩
  · rw [if_neg hqx] at hgq
    exact ⟨q, hq, Or.inl hgq.symm⟩

theorem TasksWF_upd (o : Orchestrator) (dc ir : Bool) (x : String) (f : Task → Task)
    (hf : ∀ u, (f u).fn = u.fn) (h : TasksWF o) :
    TasksWF ⟨dc, o.seq, updTask o.tasks x f, ir⟩ := by
  intro p hp
  rcases updTask_mem_inv o.tasks x f p hp with ⟨q, hq, hcase⟩
  rcases hcase with hc | hc
  · rw [hc]; exact h q hq
  · rw [hc]
    show (f q.2).fn ≠ JVal.undef
    rw [hf q.2]
    exact h q hq

theorem covers_upd_fwd (ts : List (String × Task)) (x : String) (f : Task → Task)
    (hf : ∀ u, (f u).fn = u.fn) (fr : Frame) (j : Nat) :
    covers ts fr j → covers (updTask ts x f) fr j := by
  cases fr
  case execFn n =>
    rintro ⟨t, e, hlt, hfn, hcb⟩
    rw [show covers (updTask ts x f) (Frame.execFn n) j =
      (∃ t e, lookupT (updTask ts x f) n = some t ∧ t.fn = JVal.func e ∧
        e.syncCb = some none) from rfl, lookupT_updTask]
    by_cases hx : n = x
    · rw [if_pos hx, hlt]
      exact ⟨f t, e, rfl, by rw [hf t, hfn], hcb⟩
    · rw [if_neg hx]
      exact ⟨t, e, hlt, hfn, hcb⟩
  all_goals exact id

theorem readyScan_of_depsDone (ts : List (String × Task)) (nm : String) :
    ∀ dep : List String, depsDoneB ts dep = true → readyScan ts nm dep = Ready.go := by
  intro dep
  induction dep with
  | nil => intro _; rfl
  | cons d rest ih =>
    intro h
    have h' : ((match lookupT ts d with
        | some td => td.done | none => false) && depsDoneB ts rest) = true := h
    cases hlk : lookupT ts d with
    | none => rw [hlk] at h'; exact absurd h' (by simp)
    | some t =>
      rw [hlk] at h'
      have hbits := Bool.and_eq_true_iff.mp h'
      have hd : t.done = true := hbits.1
      have hred : readyScan ts nm (d :: rest) = readyScan ts nm rest := by
        simp [readyScan, hlk, hd]
      rw [hred]
      exact ih hbits.2

theorem allDoneScan_ne_none (ts : List (String × Task)) :
    ∀ l : List String, (∀ n, n ∈ l → ∃ t, lookupT ts n = some t) →
      allDoneScan ts l ≠ none := by
  intro l
  induction l with
  | nil => intro _ h; exact Option.noConfusion h
  | cons n rest ih =>
    intro h
    rcases h n (List.mem_cons_self n rest) with ⟨t, ht⟩
    show (match lookupT ts n with
      | none => none
      | some t => if t.done then allDoneScan ts rest else some false) ≠ none
    rw [ht]
    by_cases hd : t.done
    · simp only [hd, if_true]
      exact ih (fun m hm => h m (List.mem_cons_of_mem _ hm))
    · simp only [hd, if_false]
      exact fun hc => Option.noConfusion hc

theorem step_eq_frame (c : Config) (f : Frame) (rest : List Frame)
    (hexn : c.exn = none) (hst : c.stack = f :: rest) :
    step c = stepFrame c f rest := by
  unfold step
  rw [hst, hexn]
  rfl

theorem TopRunOK_cons_other (c' : Config) (f : Frame) (r : List Frame)
    (hst : c'.stack = f :: r) (hns : ∀ i, f ≠ Frame.scan i) (hne : f ≠ Frame.endScan) :
    TopRunOK c' := by
  intro f0 hf0 hsc
  rw [hst] at hf0
  have hf : f = f0 := by injection hf0
  subst hf
  rcases hsc with ⟨i, hi⟩ | hi
  · exact absurd hi (hns i)
  · exact absurd hi hne

theorem NotifyOK_congr (c1 c2 : Config) (hdc : c2.o.doneCallback = c1.o.doneCallback)
    (htr : notifiedCount c2.trace = notifiedCount c1.trace) (h : NotifyOK c1) :
    NotifyOK c2 := by
  obtain ⟨a, b⟩ := h
  constructor
  · intro hd
    rw [hdc] at hd
    rw [htr]
    exact a hd
  · rw [htr]
    exact b

theorem TasksWF_updT (ts : List (String × Task)) (x : String) (f : Task → Task)
    (hf : ∀ u, (f u).fn = u.fn) (h : ∀ p, p ∈ ts → p.2.fn ≠ JVal.undef) :
    ∀ p, p ∈ updTask ts x f → p.2.fn ≠ JVal.undef := by
  intro p hp
  rcases updTask_mem_inv ts x f p hp with ⟨q, hq, hcase⟩
  rcases hcase with hc | hc
  · rw [hc]; exact h q hq
  · rw [hc]
    show (f q.2).fn ≠ JVal.undef
    rw [hf q.2]
    exact h q hq

/-- Popping a frame whose rescan promise is vacuous at every eligible index
    preserves the invariant (the promise carried no information). -/
theorem Inv_pop (c : Config) (f : Frame) (rest : List Frame) (pp : List String)
    (hexn : c.exn = none) (hst : c.stack = f :: rest) (h : Inv c)
    (hnc : c.o.isRunning = true → ∀ j, eligAt c.o j → covers c.o.tasks f j → False) :
    Inv { c with stack := rest, promisePending := pp } := by
  obtain ⟨_, hseqok, htwf, hsto, _, hshape, hsi, hnot⟩ := h
  rw [hst] at hsto hshape
  refine ⟨hexn, hseqok, htwf, ScanTopOnly_of_noscan rest hsto,
    TopRunOK_of_noscan _ hsto, ShapeOK_tail _ _ _ hshape, ?_, hnot⟩
  intro hr
  have hsi2 := (hsi hr)
  rw [hst] at hsi2
  exact StackInv_adapt c.o c.o (fun _ => False) (fun _ _ => id)
    (fun j he => Or.inl he) rest _ (fun _ => False)
    (fun j hel hj => hj.elim id (fun hc => hnc hr j hel hc))
    (fun j hj => hj) hsi2.2

theorem NotifyOK_stop (e : Option Err) (s : Bool) (c : Config) (h : NotifyOK c) :
    NotifyOK (stopFn e s c) := by
  obtain ⟨h1, h2⟩ := h
  have hspec := stopFn_spec e s c
  constructor
  · intro hdc
    rw [hspec.2.2.2.2.2.2.2.1] at hdc
    cases hdc
  · rw [hspec.2.2.2.2.2.2.2.2]
    by_cases hdc : c.o.doneCallback
    · rw [if_pos hdc, notifiedCount_append, h1 hdc]
      simp [notifiedCount, notifiedOf]
    · rw [if_neg hdc]
      exact h2

/-- A configuration whose run flag is cleared satisfies the invariant as soon as
    its components do: the run-conditional conjuncts are vacuous. -/
theorem Inv_of_stopped (c1 : Config)
    (hexn : c1.exn = none) (hrun : c1.o.isRunning = false)
    (htwf : TasksWF c1.o) (hns : NoScanFrames c1.stack)
    (hshape : ShapeOK c1.o c1.stack) (hnot : NotifyOK c1) : Inv c1 :=
  ⟨hexn, fun hr => Bool.noConfusion (hrun.symm.trans hr), htwf,
   ScanTopOnly_of_noscan _ hns, TopRunOK_of_noscan _ hns, hshape,
   fun hr => Bool.noConfusion (hrun.symm.trans hr), hnot⟩

/-- Popping the top frame of a stopped configuration keeps the invariant. -/
theorem Inv_pop_of_stopped (c1 : Config) (rest : List Frame) (pp : List String)
    (hexn : c1.exn = none) (hrun : c1.o.isRunning = false)
    (htwf : TasksWF c1.o) (hns : NoScanFrames rest)
    (hshape : ShapeOK c1.o rest) (hnot : NotifyOK c1) :
    Inv { c1 with stack := rest, promisePending := pp } :=
  Inv_of_stopped _ hexn hrun htwf hns hshape hnot

/-- Marking a task done in a stopped configuration (the fall-through of lines
    184-193 after a catch stopped the run) keeps the invariant. -/
theorem Inv_markpop_of_stopped (c1 : Config) (n : String) (rest : List Frame)
    (hexn : c1.exn = none) (hrun : c1.o.isRunning = false)
    (htwf : TasksWF c1.o) (hns : NoScanFrames rest)
    (hshape : ShapeOK c1.o rest) (hnot : NotifyOK c1) :
    Inv { (markDone c1 n) with trace := c1.trace ++ [TEvent.finishedSync n], stack := rest } := by
  refine Inv_of_stopped _ hexn hrun ?_ hns ?_ ?_
  · show TasksWF (markDone c1 n).o
    exact TasksWF_updT c1.o.tasks n (fun u => { u with running := false, done := true })
      (fun u => rfl) htwf
  · show ShapeOK (markDone c1 n).o rest
    exact ShapeOK_congr c1.o ((markDone c1 n).o) rfl rest hshape
  · refine NotifyOK_congr c1 _ rfl ?_ hnot
    show notifiedCount (c1.trace ++ [TEvent.finishedSync n]) = notifiedCount c1.trace
    rw [notifiedCount_append]
    rfl

theorem trace_ne_append (a : List TEvent) (x : TEvent) (h : a = a ++ [x]) : False := by
  have hlen := congrArg List.length h
  rw [List.length_append] at hlen
  have h1 : List.length [x] = 1 := rfl
  rw [h1] at hlen
  omega

theorem trace_append_one (a : List TEvent) (x y : TEvent) (h : a ++ [x] = a ++ [y]) :
    x = y := by
  induction a with
  | nil =>
    injection h with h1 h2
  | cons b bs ih =>
    injection h with h1 h2
    exact ih h2

theorem startedOf_snoc (a : List TEvent) (x : TEvent) (hx : startedOf [x] = []) :
    startedOf (a ++ [x]) = startedOf a := by
  rw [startedOf_append, hx, List.append_nil]

theorem stopFn_startedOf (e : Option Err) (s : Bool) (c1 : Config) :
    startedOf (stopFn e s c1).trace = startedOf c1.trace := by
  rw [(stopFn_spec e s c1).2.2.2.2.2.2.2.2]
  by_cases hdc : c1.o.doneCallback = true
  · rw [if_pos hdc, startedOf_append]
    show startedOf c1.trace ++ [] = startedOf c1.trace
    rw [List.append_nil]
  · rw [if_neg hdc]

/-- The task a scan just set running (line 149) is itself no longer eligible. -/
theorem eligAt_upd_run_self (o : Orchestrator) (n : String) (i : Nat)
    (hget : o.seq.get? i = some n) :
    ¬ eligAt ⟨o.doneCallback, o.seq,
      updTask o.tasks n (fun u => { u with running := true }), o.isRunning⟩ i := by
  rintro ⟨m, hgm, hel⟩
  have hgm2 : o.seq.get? i = some m := hgm
  rw [hget] at hgm2
  have hmn : n = m := by injection hgm2
  subst hmn
  unfold eligible at hel
  rw [show (Orchestrator.mk o.doneCallback o.seq
      (updTask o.tasks n (fun u => { u with running := true })) o.isRunning).tasks
      = updTask o.tasks n (fun u => { u with running := true }) from rfl,
    lookupT_updTask_self] at hel
  cases hl : lookupT o.tasks n with
  | none => rw [hl] at hel; simp at hel
  | some t => rw [hl] at hel; simp at hel

/-- _runStep entry (lines 105-109) preserves the machine invariant. -/
theorem Inv_stepFrame_runStep (c : Config) (rest : List Frame)
    (hexn : c.exn = none) (hst : c.stack = Frame.runStep :: rest) (h : Inv c) :
    Inv (stepFrame c Frame.runStep rest) := by
  have hInv := h
  obtain ⟨_, hseqok, htwf, hsto, htro, hshape, hsi, hnot⟩ := h
  by_cases hrun : c.o.isRunning = true
  · rw [show stepFrame c Frame.runStep rest = { c with stack := Frame.scan 0 :: rest }
        from by simp [stepFrame, hrun]]
    have hsto2 : NoScanFrames rest := by rw [hst] at hsto; exact hsto
    have hshape2 : ShapeOK c.o (Frame.runStep :: rest) := by rw [hst] at hshape; exact hshape
    refine ⟨hexn, hseqok, htwf, hsto2, fun f _ _ => hrun,
      ShapeOK_tail c.o Frame.runStep rest hshape2, ?_, hnot⟩
    intro _
    refine ⟨fun j hj _ => absurd hj (Nat.not_lt_zero j), ?_⟩
    exact StackInv_full c.o rest _ (fun j => Or.inr (Nat.zero_le j))
  · rw [show stepFrame c Frame.runStep rest = { c with stack := rest }
        from by simp [stepFrame, hrun]]
    exact Inv_pop c Frame.runStep rest _ hexn hst hInv (fun hr => absurd hr hrun)

/-- The abort check after a task launch (lines 115-117) and the loop increment
    preserve the machine invariant. -/
theorem Inv_stepFrame_afterTask (c : Config) (i : Nat) (rest : List Frame)
    (hexn : c.exn = none) (hst : c.stack = Frame.afterTask i :: rest) (h : Inv c) :
    Inv (stepFrame c (Frame.afterTask i) rest) := by
  have hInv := h
  obtain ⟨_, hseqok, htwf, hsto, htro, hshape, hsi, hnot⟩ := h
  by_cases hrun : c.o.isRunning = true
  · rw [show stepFrame c (Frame.afterTask i) rest =
        { c with stack := Frame.scan (i + 1) :: rest } from by simp [stepFrame, hrun]]
    have hsto2 : NoScanFrames rest := by rw [hst] at hsto; exact hsto
    have hshape2 : ShapeOK c.o (Frame.afterTask i :: rest) := by rw [hst] at hshape; exact hshape
    have hsi2 := hsi hrun
    rw [hst] at hsi2
    refine ⟨hexn, hseqok, htwf, hsto2, fun f _ _ => hrun,
      ShapeOK_tail c.o (Frame.afterTask i) rest hshape2, ?_, hnot⟩
    intro _
    refine ⟨?_, hsi2.2⟩
    intro j hj hel
    exact hsi2.1 j (Nat.lt_succ_iff.mp hj) hel
  · rw [show stepFrame c (Frame.afterTask i) rest = { c with stack := rest }
        from by simp [stepFrame, hrun]]
    exact Inv_pop c (Frame.afterTask i) rest _ hexn hst hInv (fun hr => absurd hr hrun)

/-- The allDone check at the end of a scan (lines 119-121) preserves the machine
    invariant: every sequence member is registered, so reading its done flag
    cannot throw, and a successful finish goes through stop. -/
theorem Inv_stepFrame_endScan (c : Config) (rest : List Frame)
    (hexn : c.exn = none) (hst : c.stack = Frame.endScan :: rest) (h : Inv c) :
    Inv (stepFrame c Frame.endScan rest) := by
  have hInv := h
  obtain ⟨_, hseqok, htwf, hsto, htro, hshape, hsi, hnot⟩ := h
  have hrun : c.o.isRunning = true := htro Frame.endScan (by rw [hst]; rfl) (Or.inr rfl)
  have hseqok2 := hseqok hrun
  have hsto2 : NoScanFrames rest := by rw [hst] at hsto; exact hsto
  have hshape2 : ShapeOK c.o (Frame.endScan :: rest) := by rw [hst] at hshape; exact hshape
  cases had : allDoneScan c.o.tasks c.o.seq with
  | none => exact absurd had (allDoneScan_ne_none c.o.tasks c.o.seq hseqok2.2.1)
  | some b =>
    cases b with
    | true =>
      rw [show stepFrame c Frame.endScan rest = stopFn none true { c with stack := rest }
          from by simp [stepFrame, had]]
      have hspec := stopFn_spec none true { c with stack := rest }
      refine Inv_of_stopped _ (hspec.2.2.2.2.2.2.1.trans hexn) hspec.1
        (TasksWF_congr c.o _ hspec.2.2.1 htwf) ?_ ?_ (NotifyOK_stop none true _ hnot)
      · rw [show (stopFn none true { c with stack := rest }).stack = rest
            from hspec.2.2.2.1]
        exact hsto2
      · rw [show (stopFn none true { c with stack := rest }).stack = rest
            from hspec.2.2.2.1]
        exact ShapeOK_congr c.o _ hspec.2.1 rest (ShapeOK_tail _ _ _ hshape2)
    | false =>
      rw [show stepFrame c Frame.endScan rest = { c with stack := rest }
          from by simp [stepFrame, had]]
      exact Inv_pop c Frame.endScan rest _ hexn hst hInv (fun _ _ _ hc => hc)

/-- Pushing the after-call continuation when the executor cannot have invoked
    its callback synchronously preserves the invariant. -/
theorem Inv_execFn_push (c : Config) (n : String) (rest : List Frame)
    (hexn : c.exn = none) (hst : c.stack = Frame.execFn n :: rest) (h : Inv c)
    (hnc : ∀ j, ¬ covers c.o.tasks (Frame.execFn n) j) :
    Inv { c with stack := Frame.afterFn n :: rest } := by
  obtain ⟨_, hseqok, htwf, hsto, htro, hshape, hsi, hnot⟩ := h
  have hsto2 : NoScanFrames rest := by rw [hst] at hsto; exact hsto
  have hshape2 : ShapeOK c.o (Frame.execFn n :: rest) := by rw [hst] at hshape; exact hshape
  refine ⟨hexn, hseqok, htwf, hsto2,
    TopRunOK_cons_other _ (Frame.afterFn n) rest rfl (fun i hh => Frame.noConfusion hh)
      (fun hh => Frame.noConfusion hh), hshape2, ?_, hnot⟩
  intro hr
  have hsi2 := hsi hr
  rw [hst] at hsi2
  refine ⟨trivial, ?_⟩
  refine StackInv_adapt c.o c.o (fun _ => False) (fun _ _ => id) (fun j he => Or.inl he)
    rest _ _ ?_ (fun j hj => hj.elim) hsi2.2
  intro j _ hj
  rcases hj with hf | hex
  · exact Or.inl hf
  · exact absurd hex (hnc j)

/-- The executor invocation frame (line 162) preserves the machine invariant:
    when the executor invokes its callback synchronously, the callback body and
    the continuation are stacked in call order. -/
theorem Inv_stepFrame_execFn (c : Config) (n : String) (rest : List Frame)
    (hexn : c.exn = none) (hst : c.stack = Frame.execFn n :: rest) (h : Inv c) :
    Inv (stepFrame c (Frame.execFn n) rest) := by
  have hInv := h
  obtain ⟨_, hseqok, htwf, hsto, htro, hshape, hsi, hnot⟩ := h
  cases hlt : lookupT c.o.tasks n with
  | none =>
    rw [show stepFrame c (Frame.execFn n) rest = { c with stack := rest }
        from by simp [stepFrame, hlt]]
    refine Inv_pop c (Frame.execFn n) rest _ hexn hst hInv ?_
    rintro _ j _ ⟨t2, e2, hl2, _, _⟩
    rw [hlt] at hl2
    exact Option.noConfusion hl2
  | some t =>
    have hsto2 : NoScanFrames rest := by rw [hst] at hsto; exact hsto
    have hshape2 : ShapeOK c.o (Frame.execFn n :: rest) := by rw [hst] at hshape; exact hshape
    cases hfn : t.fn with
    | func f =>
      cases hcb : f.syncCb with
      | some e0 =>
        rw [show stepFrame c (Frame.execFn n) rest =
            { c with stack := Frame.cbBody n e0 :: Frame.afterFn n :: rest }
            from by simp [stepFrame, hlt, hfn, hcb]]
        refine ⟨hexn, hseqok, htwf,
          ⟨fun i hh => Frame.noConfusion hh, fun hh => Frame.noConfusion hh, hsto2⟩,
          TopRunOK_cons_other _ (Frame.cbBody n e0) _ rfl (fun i hh => Frame.noConfusion hh)
            (fun hh => Frame.noConfusion hh), hshape2, ?_, hnot⟩
        intro hr
        have hsi2 := hsi hr
        rw [hst] at hsi2
        refine ⟨trivial, trivial, ?_⟩
        refine StackInv_adapt c.o c.o (fun _ => False) (fun _ _ => id) (fun j he => Or.inl he)
          rest _ _ ?_ (fun j hj => hj.elim) hsi2.2
        intro j _ hj
        rcases hj with hf | hex
        · exact Or.inl (Or.inl hf)
        · rcases hex with ⟨t2, e2, hl2, hf2, hc2⟩
          rw [hlt] at hl2
          have ht2 : t = t2 := by injection hl2
          rw [← ht2, hfn] at hf2
          have he2 : f = e2 := by injection hf2
          rw [← he2, hcb] at hc2
          have he0 : e0 = none := by injection hc2
          exact Or.inl (Or.inr he0)
      | none =>
        rw [show stepFrame c (Frame.execFn n) rest =
            { c with stack := Frame.afterFn n :: rest }
            from by simp [stepFrame, hlt, hfn, hcb]]
        refine Inv_execFn_push c n rest hexn hst hInv ?_
        rintro j ⟨t2, e2, hl2, hf2, hc2⟩
        rw [hlt] at hl2
        have ht2 : t = t2 := by injection hl2
        rw [← ht2, hfn] at hf2
        have he2 : f = e2 := by injection hf2
        rw [← he2, hcb] at hc2
        exact Option.noConfusion hc2
    | undef =>
      rw [show stepFrame c (Frame.execFn n) rest = { c with stack := Frame.afterFn n :: rest }
          from by simp [stepFrame, hlt, hfn]]
      refine Inv_execFn_push c n rest hexn hst hInv ?_
      rintro j ⟨t2, e2, hl2, hf2, _⟩
      rw [hlt] at hl2
      have ht2 : t = t2 := by injection hl2
      rw [← ht2, hfn] at hf2
      exact JVal.noConfusion hf2
    | str s =>
      rw [show stepFrame c (Frame.execFn n) rest = { c with stack := Frame.afterFn n :: rest }
          from by simp [stepFrame, hlt, hfn]]
      refine Inv_execFn_push c n rest hexn hst hInv ?_
      rintro j ⟨t2, e2, hl2, hf2, _⟩
      rw [hlt] at hl2
      have ht2 : t = t2 := by injection hl2
      rw [← ht2, hfn] at hf2
      exact JVal.noConfusion hf2
    | arr l =>
      rw [show stepFrame c (Frame.execFn n) rest = { c with stack := Frame.afterFn n :: rest }
          from by simp [stepFrame, hlt, hfn]]
      refine Inv_execFn_push c n rest hexn hst hInv ?_
      rintro j ⟨t2, e2, hl2, hf2, _⟩
      rw [hlt] at hl2
      have ht2 : t = t2 := by injection hl2
      rw [← ht2, hfn] at hf2
      exact JVal.noConfusion hf2

/-- A scan position whose task is not eligible moves on to the abort check and
    the next loop iteration, preserving the invariant. -/
theorem Inv_scan_afterTask (c : Config) (i : Nat) (rest : List Frame)
    (hexn : c.exn = none) (hst : c.stack = Frame.scan i :: rest) (h : Inv c)
    (hinel : ¬ eligAt c.o i) :
    Inv { c with stack := Frame.afterTask i :: rest } := by
  obtain ⟨_, hseqok, htwf, hsto, htro, hshape, hsi, hnot⟩ := h
  have hrun : c.o.isRunning = true := htro (Frame.scan i) (by rw [hst]; rfl) (Or.inl ⟨i, rfl⟩)
  have hsto2 : NoScanFrames rest := by rw [hst] at hsto; exact hsto
  have hshape2 : ShapeOK c.o (Frame.scan i :: rest) := by rw [hst] at hshape; exact hshape
  refine ⟨hexn, hseqok, htwf, hsto2,
    TopRunOK_cons_other _ (Frame.afterTask i) rest rfl (fun j hh => Frame.noConfusion hh)
      (fun hh => Frame.noConfusion hh),
    ShapeOK_tail c.o (Frame.scan i) rest hshape2, ?_, hnot⟩
  intro hr
  have hsi2 := hsi hr
  rw [hst] at hsi2
  refine ⟨?_, ?_⟩
  · intro j hj hel
    rcases Nat.lt_or_ge j i with hlt2 | hge
    · exact hsi2.1 j hlt2 hel
    · have hji : j = i := Nat.le_antisymm hj hge
      subst hji
      exact hinel hel
  · refine StackInv_adapt c.o c.o (fun _ => False) (fun _ _ => id) (fun j he => Or.inl he)
      rest _ _ ?_ (fun j hj => hj.elim) hsi2.2
    intro j hel hj
    rcases hj with hf | hij
    · exact Or.inl hf
    · rcases Nat.eq_or_lt_of_le hij with heq | hlt2
      · subst heq
        exact absurd hel hinel
      · exact Or.inr hlt2

/-- One scan position of the _runStep loop (lines 110-118) preserves the machine
    invariant, in every branch: loop exit, eligible launch, ineligible skip, and
    the missing-dependency stop of line 132. -/
theorem Inv_stepFrame_scan (c : Config) (i : Nat) (rest : List Frame)
    (hexn : c.exn = none) (hst : c.stack = Frame.scan i :: rest) (h : Inv c) :
    Inv (stepFrame c (Frame.scan i) rest) := by
  have hInv := h
  obtain ⟨_, hseqok, htwf, hsto, htro, hshape, hsi, hnot⟩ := h
  have hrun : c.o.isRunning = true := htro (Frame.scan i) (by rw [hst]; rfl) (Or.inl ⟨i, rfl⟩)
  have hseqok2 := hseqok hrun
  have hsto2 : NoScanFrames rest := by rw [hst] at hsto; exact hsto
  have hshape2 : ShapeOK c.o (Frame.scan i :: rest) := by rw [hst] at hshape; exact hshape
  have hsi2 : StackInv c.o (Frame.scan i :: rest) (fun _ => False) := by
    have hx := hsi hrun; rw [hst] at hx; exact hx
  cases hget : c.o.seq.get? i with
  | none =>
    have hget2 := hget
    rw [List.get?_eq_getElem?] at hget2
    rw [show stepFrame c (Frame.scan i) rest = { c with stack := Frame.endScan :: rest }
        from by simp [stepFrame, hget2]]
    refine ⟨hexn, hseqok, htwf, hsto2, fun f _ _ => hrun,
      ShapeOK_tail c.o (Frame.scan i) rest hshape2, ?_, hnot⟩
    intro _
    refine ⟨trivial, ?_⟩
    refine StackInv_adapt c.o c.o (fun _ => False) (fun _ _ => id) (fun j he => Or.inl he)
      rest _ _ ?_ (fun j hj => hj.elim) hsi2.2
    intro j hel hj
    rcases hj with hf | hij
    · exact Or.inl hf
    · rcases hel with ⟨m, hgm, _⟩
      have hjlen : j < c.o.seq.length := by
        by_contra hc
        rw [List.get?_eq_none.mpr (Nat.le_of_not_lt hc)] at hgm
        exact Option.noConfusion hgm
      have hilen : c.o.seq.length ≤ i := List.get?_eq_none.mp hget
      have hij2 : i ≤ j := hij
      omega
  | some n =>
    have hget2 := hget
    rw [List.get?_eq_getElem?] at hget2
    cases hlt : lookupT c.o.tasks n with
    | none =>
      rcases hseqok2.2.1 n (List.get?_mem hget) with ⟨t0, ht0⟩
      rw [ht0] at hlt
      exact Option.noConfusion hlt
    | some t =>
      by_cases hgd : t.done = false ∧ t.running = false
      · cases hready : readyScan c.o.tasks n t.dep with
        | go =>
          rw [show stepFrame c (Frame.scan i) rest =
              { c with
                o := { c.o with tasks := updTask c.o.tasks n (fun u => { u with running := true }) },
                cbLive := n :: c.cbLive,
                trace := c.trace ++ [TEvent.started n],
                stack := Frame.execFn n :: Frame.afterTask i :: rest }
              from by simp [stepFrame, hget2, hlt, hgd.1, hgd.2, hready]]
          have hninew : ¬ eligAt { c.o with
              tasks := updTask c.o.tasks n (fun u => { u with running := true }) } i :=
            eligAt_upd_run_self c.o n i hget
          refine ⟨hexn, ?_, ?_, ?_, ?_, ?_, ?_, ?_⟩
          · intro _
            exact SeqOK_upd c.o c.o.doneCallback c.o.isRunning n
              (fun u => { u with running := true }) (fun u => rfl) hseqok2
          · exact TasksWF_upd c.o c.o.doneCallback c.o.isRunning n
              (fun u => { u with running := true }) (fun u => rfl) htwf
          · exact ⟨fun j hh => Frame.noConfusion hh, fun hh => Frame.noConfusion hh, hsto2⟩
          · exact TopRunOK_cons_other _ (Frame.execFn n) _ rfl
              (fun j hh => Frame.noConfusion hh) (fun hh => Frame.noConfusion hh)
          · refine ⟨⟨i, rfl, hget⟩, ?_⟩
            exact ShapeOK_congr c.o
              ({ c.o with tasks := updTask c.o.tasks n (fun u => { u with running := true }) })
              rfl rest (ShapeOK_tail c.o (Frame.scan i) rest hshape2)
          · intro _
            refine ⟨trivial, ?_, ?_⟩
            · intro j hj hel
              rcases Nat.lt_or_ge j i with hlt2 | hge
              · exact (hsi2.1 j hlt2 (eligAt_upd_run c.o n j hel)).elim
              · have hji : j = i := Nat.le_antisymm hj hge
                subst hji
                exact absurd hel hninew
            · refine StackInv_adapt c.o
                ({ c.o with tasks := updTask c.o.tasks n (fun u => { u with running := true }) })
                (fun _ => False)
                (fun fr j hcv => covers_upd_fwd c.o.tasks n (fun u => { u with running := true })
                  (fun u => rfl) fr j hcv)
                (fun j he => Or.inl (eligAt_upd_run c.o n j he)) rest _ _ ?_
                (fun j hj => hj.elim) hsi2.2
              intro j hel hj
              rcases hj with hf | hij
              · exact Or.inl (Or.inl hf)
              · rcases Nat.eq_or_lt_of_le hij with heq | hlt2
                · subst heq
                  exact absurd hel hninew
                · exact Or.inr hlt2
          · refine NotifyOK_congr c _ rfl ?_ hnot
            show notifiedCount (c.trace ++ [TEvent.started n]) = notifiedCount c.trace
            rw [notifiedCount_append]
            rfl
        | wait =>
          rw [show stepFrame c (Frame.scan i) rest = { c with stack := Frame.afterTask i :: rest }
              from by simp [stepFrame, hget2, hlt, hgd.1, hgd.2, hready]]
          refine Inv_scan_afterTask c i rest hexn hst hInv ?_
          rintro ⟨m, hgm, hel⟩
          rw [hget] at hgm
          have hmn : n = m := by injection hgm
          subst hmn
          unfold eligible at hel
          simp only [hlt, Bool.and_eq_true] at hel
          have hgo := readyScan_of_depsDone c.o.tasks n t.dep hel.2
          rw [hready] at hgo
          exact Ready.noConfusion hgo
        | missing msg =>
          rw [show stepFrame c (Frame.scan i) rest =
              stopFn (some msg) false { c with stack := Frame.afterTask i :: rest }
              from by simp [stepFrame, hget2, hlt, hgd.1, hgd.2, hready]]
          have hspec := stopFn_spec (some msg) false { c with stack := Frame.afterTask i :: rest }
          refine Inv_of_stopped _ (hspec.2.2.2.2.2.2.1.trans hexn) hspec.1
            (TasksWF_congr c.o _ hspec.2.2.1 htwf) ?_ ?_ (NotifyOK_stop (some msg) false _ hnot)
          · rw [show (stopFn (some msg) false { c with stack := Frame.afterTask i :: rest }).stack
                = Frame.afterTask i :: rest from hspec.2.2.2.1]
            exact ⟨fun j hh => Frame.noConfusion hh, fun hh => Frame.noConfusion hh, hsto2⟩
          · rw [show (stopFn (some msg) false { c with stack := Frame.afterTask i :: rest }).stack
                = Frame.afterTask i :: rest from hspec.2.2.2.1]
            exact ShapeOK_congr c.o _ hspec.2.1 (Frame.afterTask i :: rest)
              (ShapeOK_tail c.o (Frame.scan i) rest hshape2)
      · rw [show stepFrame c (Frame.scan i) rest = { c with stack := Frame.afterTask i :: rest }
            from by simp [stepFrame, hget2, hlt, hgd]]
        refine Inv_scan_afterTask c i rest hexn hst hInv ?_
        rintro ⟨m, hgm, hel⟩
        rw [hget] at hgm
        have hmn : n = m := by injection hgm
        subst hmn
        unfold eligible at hel
        simp only [hlt, Bool.and_eq_true, Bool.not_eq_true'] at hel
        exact hgd ⟨hel.1.1, hel.1.2⟩

/-- The synchronous completion of lines 184-193 while the run is still active:
    the task is marked done right above its own afterTask continuation, and by
    the dependency ordering of the stored sequence every newly eligible
    dependent lies at a later scan position, which that continuation covers. -/
theorem Inv_afterFn_mark (c : Config) (n : String) (rest : List Frame)
    (hexn : c.exn = none) (hst : c.stack = Frame.afterFn n :: rest) (h : Inv c) :
    Inv { (markDone c n) with trace := c.trace ++ [TEvent.finishedSync n], stack := rest } := by
  obtain ⟨_, hseqok, htwf, hsto, htro, hshape, hsi, hnot⟩ := h
  have hsto2 : NoScanFrames rest := by rw [hst] at hsto; exact hsto
  have hshape2 : ShapeOK c.o (Frame.afterFn n :: rest) := by rw [hst] at hshape; exact hshape
  refine ⟨hexn, ?_, ?_, ScanTopOnly_of_noscan rest hsto2, TopRunOK_of_noscan _ hsto2, ?_, ?_, ?_⟩
  · intro hr
    exact SeqOK_upd c.o c.o.doneCallback c.o.isRunning n
      (fun u => { u with running := false, done := true }) (fun u => rfl) (hseqok hr)
  · exact TasksWF_upd c.o c.o.doneCallback c.o.isRunning n
      (fun u => { u with running := false, done := true }) (fun u => rfl) htwf
  · show ShapeOK (markDone c n).o rest
    exact ShapeOK_congr c.o ((markDone c n).o) rfl rest
      (ShapeOK_tail c.o (Frame.afterFn n) rest hshape2)
  · intro hr
    rcases hshape2.1 with ⟨i0, hhead, hgeti⟩
    have hsi2 := hsi hr
    rw [hst] at hsi2
    have hseqok2 := hseqok hr
    have hdep : ∀ j, eligAt (markDone c n).o j → eligAt c.o j ∨ i0 + 1 ≤ j := by
      intro j hel
      rcases eligAt_markDone c.o n j hel with he | ⟨m, tm, hgm, hlm, hnd⟩
      · exact Or.inl he
      · refine Or.inr ?_
        have hmem : m ∈ c.o.seq := List.get?_mem hgm
        have hdeps := hseqok2.2.2 m tm n hmem hlm hnd
        have hin : c.o.seq.indexOf n = i0 := nodup_indexOf_eq c.o.seq hseqok2.1 i0 n hgeti
        have him : c.o.seq.indexOf m = j := nodup_indexOf_eq c.o.seq hseqok2.1 j m hgm
        rw [hin, him] at hdeps
        exact hdeps.2
    cases rest with
    | nil => exact trivial
    | cons fr rest2 =>
      have hfr : fr = Frame.afterTask i0 := by
        have hh : (fr :: rest2).head? = some (Frame.afterTask i0) := hhead
        injection hh
      subst hfr
      refine ⟨?_, ?_⟩
      · intro j hj hel
        rcases hdep j hel with he | he
        · exact (hsi2.2.1 j hj he).elim id id
        · have hj2 : j ≤ i0 := hj
          omega
      · refine StackInv_adapt c.o ((markDone c n).o) (fun j => i0 + 1 ≤ j)
          (fun fr j hcv => covers_upd_fwd c.o.tasks n
            (fun u => { u with running := false, done := true }) (fun u => rfl) fr j hcv)
          hdep rest2 _ _ ?_ (fun j hj => Or.inr hj) hsi2.2.2
        intro j _ hj
        rcases hj with hff | hle
        · exact hff.elim (fun hf => hf.elim) (fun hf => hf.elim)
        · exact Or.inr hle
  · refine NotifyOK_congr c _ rfl ?_ hnot
    show notifiedCount (c.trace ++ [TEvent.finishedSync n]) = notifiedCount c.trace
    rw [notifiedCount_append]
    rfl

/-- The rest of _runTask after the executor call returned (lines 161-193)
    preserves the machine invariant in every completion style. -/
theorem Inv_stepFrame_afterFn (c : Config) (n : String) (rest : List Frame)
    (hexn : c.exn = none) (hst : c.stack = Frame.afterFn n :: rest) (h : Inv c) :
    Inv (stepFrame c (Frame.afterFn n) rest) := by
  have hInv := h
  obtain ⟨_, hseqok, htwf, hsto, htro, hshape, hsi, hnot⟩ := h
  have hsto2 : NoScanFrames rest := by rw [hst] at hsto; exact hsto
  have hshape2 : ShapeOK c.o (Frame.afterFn n :: rest) := by rw [hst] at hshape; exact hshape
  cases hlt : lookupT c.o.tasks n with
  | none =>
    rw [show stepFrame c (Frame.afterFn n) rest = { c with stack := rest }
        from by simp [stepFrame, hlt]]
    exact Inv_pop c (Frame.afterFn n) rest _ hexn hst hInv (fun _ _ _ hc => hc)
  | some t =>
    cases hfn : t.fn with
    | undef => exact absurd hfn (htwf (n, t) (lookupT_mem c.o.tasks n t hlt))
    | str s =>
      have hspec := stopFn_spec (some "TypeError: task.fn.call is not a function") false c
      have ht1 : TasksWF (stopFn (some "TypeError: task.fn.call is not a function") false c).o :=
        TasksWF_congr c.o _ hspec.2.2.1 htwf
      have hs1 : ShapeOK (stopFn (some "TypeError: task.fn.call is not a function") false c).o
          rest := ShapeOK_congr c.o _ hspec.2.1 rest
        (ShapeOK_tail c.o (Frame.afterFn n) rest hshape2)
      have hn1 : NotifyOK (stopFn (some "TypeError: task.fn.call is not a function") false c) :=
        NotifyOK_stop _ false c hnot
      by_cases hsl : s.length = 0
      · rw [show stepFrame c (Frame.afterFn n) rest =
            { (markDone (stopFn (some "TypeError: task.fn.call is not a function") false c) n)
              with trace := (stopFn (some "TypeError: task.fn.call is not a function")
                false c).trace ++ [TEvent.finishedSync n], stack := rest }
            from by simp [stepFrame, hlt, hfn, JVal.jlen, hsl]]
        exact Inv_markpop_of_stopped _ n rest (hspec.2.2.2.2.2.2.1.trans hexn) hspec.1 ht1
          hsto2 hs1 hn1
      · rw [show stepFrame c (Frame.afterFn n) rest =
            { (stopFn (some "TypeError: task.fn.call is not a function") false c)
              with stack := rest }
            from by simp [stepFrame, hlt, hfn, JVal.jlen, hsl]]
        exact Inv_pop_of_stopped _ rest _ (hspec.2.2.2.2.2.2.1.trans hexn) hspec.1 ht1
          hsto2 hs1 hn1
    | arr l =>
      have hspec := stopFn_spec (some "TypeError: task.fn.call is not a function") false c
      have ht1 : TasksWF (stopFn (some "TypeError: task.fn.call is not a function") false c).o :=
        TasksWF_congr c.o _ hspec.2.2.1 htwf
      have hs1 : ShapeOK (stopFn (some "TypeError: task.fn.call is not a function") false c).o
          rest := ShapeOK_congr c.o _ hspec.2.1 rest
        (ShapeOK_tail c.o (Frame.afterFn n) rest hshape2)
      have hn1 : NotifyOK (stopFn (some "TypeError: task.fn.call is not a function") false c) :=
        NotifyOK_stop _ false c hnot
      by_cases hsl : l.length = 0
      · rw [show stepFrame c (Frame.afterFn n) rest =
            { (markDone (stopFn (some "TypeError: task.fn.call is not a function") false c) n)
              with trace := (stopFn (some "TypeError: task.fn.call is not a function")
                false c).trace ++ [TEvent.finishedSync n], stack := rest }
            from by simp [stepFrame, hlt, hfn, JVal.jlen, hsl]]
        exact Inv_markpop_of_stopped _ n rest (hspec.2.2.2.2.2.2.1.trans hexn) hspec.1 ht1
          hsto2 hs1 hn1
      · rw [show stepFrame c (Frame.afterFn n) rest =
            { (stopFn (some "TypeError: task.fn.call is not a function") false c)
              with stack := rest }
            from by simp [stepFrame, hlt, hfn, JVal.jlen, hsl]]
        exact Inv_pop_of_stopped _ rest _ (hspec.2.2.2.2.2.2.1.trans hexn) hspec.1 ht1
          hsto2 hs1 hn1
    | func f =>
      cases hth : f.thrown with
      | some e =>
        have hspec := stopFn_spec (some (e.getD (n ++ " threw an exception"))) false c
        have ht1 : TasksWF (stopFn (some (e.getD (n ++ " threw an exception"))) false c).o :=
          TasksWF_congr c.o _ hspec.2.2.1 htwf
        have hs1 : ShapeOK (stopFn (some (e.getD (n ++ " threw an exception"))) false c).o
            rest := ShapeOK_congr c.o _ hspec.2.1 rest
          (ShapeOK_tail c.o (Frame.afterFn n) rest hshape2)
        have hn1 : NotifyOK (stopFn (some (e.getD (n ++ " threw an exception"))) false c) :=
          NotifyOK_stop _ false c hnot
        by_cases har : f.arity = 0
        · rw [show stepFrame c (Frame.afterFn n) rest =
              { (markDone (stopFn (some (e.getD (n ++ " threw an exception"))) false c) n)
                with trace := (stopFn (some (e.getD (n ++ " threw an exception")))
                  false c).trace ++ [TEvent.finishedSync n], stack := rest }
              from by simp [stepFrame, hlt, hfn, hth, JVal.jlen, har]]
          exact Inv_markpop_of_stopped _ n rest (hspec.2.2.2.2.2.2.1.trans hexn) hspec.1 ht1
            hsto2 hs1 hn1
        · rw [show stepFrame c (Frame.afterFn n) rest =
              { (stopFn (some (e.getD (n ++ " threw an exception"))) false c)
                with stack := rest }
              from by simp [stepFrame, hlt, hfn, hth, JVal.jlen, har]]
          exact Inv_pop_of_stopped _ rest _ (hspec.2.2.2.2.2.2.1.trans hexn) hspec.1 ht1
            hsto2 hs1 hn1
      | none =>
        by_cases hpl : f.promiseLike = true
        · rw [show stepFrame c (Frame.afterFn n) rest =
              { c with promisePending := n :: c.promisePending, stack := rest }
              from by simp [stepFrame, hlt, hfn, hth, hpl]]
          exact Inv_pop c (Frame.afterFn n) rest _ hexn hst hInv (fun _ _ _ hc => hc)
        · by_cases har : f.arity = 0
          · rw [show stepFrame c (Frame.afterFn n) rest =
                { (markDone c n) with trace := c.trace ++ [TEvent.finishedSync n], stack := rest }
                from by simp [stepFrame, hlt, hfn, hth, hpl, JVal.jlen, har]]
            exact Inv_afterFn_mark c n rest hexn hst hInv
          · rw [show stepFrame c (Frame.afterFn n) rest = { c with stack := rest }
                from by simp [stepFrame, hlt, hfn, hth, hpl, JVal.jlen, har]]
            exact Inv_pop c (Frame.afterFn n) rest _ hexn hst hInv (fun _ _ _ hc => hc)

/-- A completion handler that marks its task done and re-enters _runStep
    preserves the machine invariant: the fresh scheduling pass covers every
    sequence position. -/
theorem Inv_mark_runStep (c : Config) (f0 : Frame) (rest : List Frame) (n : String)
    (ev : TEvent) (hevn : notifiedOf [ev] = [])
    (hexn : c.exn = none) (hst : c.stack = f0 :: rest) (h : Inv c) :
    Inv { (markDone c n) with trace := c.trace ++ [ev], stack := Frame.runStep :: rest } := by
  obtain ⟨_, hseqok, htwf, hsto, htro, hshape, hsi, hnot⟩ := h
  have hsto2 : NoScanFrames rest := by rw [hst] at hsto; exact hsto
  have hshape2 : ShapeOK c.o (f0 :: rest) := by rw [hst] at hshape; exact hshape
  refine ⟨hexn, ?_, ?_, hsto2, TopRunOK_cons_other _ Frame.runStep rest rfl
      (fun i hh => Frame.noConfusion hh) (fun hh => Frame.noConfusion hh), ?_, ?_, ?_⟩
  · intro hr
    exact SeqOK_upd c.o c.o.doneCallback c.o.isRunning n
      (fun u => { u with running := false, done := true }) (fun u => rfl) (hseqok hr)
  · exact TasksWF_upd c.o c.o.doneCallback c.o.isRunning n
      (fun u => { u with running := false, done := true }) (fun u => rfl) htwf
  · show ShapeOK (markDone c n).o (Frame.runStep :: rest)
    exact ShapeOK_congr c.o ((markDone c n).o) rfl rest (ShapeOK_tail c.o f0 rest hshape2)
  · intro _
    exact ⟨trivial, StackInv_full _ rest _ (fun j => Or.inr trivial)⟩
  · refine NotifyOK_congr c _ rfl ?_ hnot
    show notifiedCount (c.trace ++ [ev]) = notifiedCount c.trace
    rw [notifiedCount_append]
    show notifiedCount c.trace + (notifiedOf [ev]).length = notifiedCount c.trace
    rw [hevn]
    rfl

/-- A completion handler that marks its task done and then stops the run with an
    error preserves the machine invariant. -/
theorem Inv_mark_stop_pop (c : Config) (f0 : Frame) (rest : List Frame) (n : String)
    (ev : TEvent) (e : Option Err) (hevn : notifiedOf [ev] = [])
    (hexn : c.exn = none) (hst : c.stack = f0 :: rest) (h : Inv c) :
    Inv (stopFn e false { (markDone c n) with trace := c.trace ++ [ev], stack := rest }) := by
  obtain ⟨_, hseqok, htwf, hsto, htro, hshape, hsi, hnot⟩ := h
  have hsto2 : NoScanFrames rest := by rw [hst] at hsto; exact hsto
  have hshape2 : ShapeOK c.o (f0 :: rest) := by rw [hst] at hshape; exact hshape
  have hspec := stopFn_spec e false { (markDone c n) with trace := c.trace ++ [ev], stack := rest }
  refine Inv_of_stopped _ (hspec.2.2.2.2.2.2.1.trans hexn) hspec.1 ?_ ?_ ?_ ?_
  · intro p hp
    rw [hspec.2.2.1] at hp
    exact TasksWF_updT c.o.tasks n (fun u => { u with running := false, done := true })
      (fun u => rfl) htwf p hp
  · rw [show (stopFn e false { (markDone c n) with trace := c.trace ++ [ev], stack := rest }).stack = rest from hspec.2.2.2.1]
    exact hsto2
  · rw [show (stopFn e false { (markDone c n) with trace := c.trace ++ [ev], stack := rest }).stack = rest from hspec.2.2.2.1]
    exact ShapeOK_congr c.o _ hspec.2.1 rest (ShapeOK_tail c.o f0 rest hshape2)
  · refine NotifyOK_stop e false _ ?_
    refine NotifyOK_congr c _ rfl ?_ hnot
    show notifiedCount (c.trace ++ [ev]) = notifiedCount c.trace
    rw [notifiedCount_append]
    show notifiedCount c.trace + (notifiedOf [ev]).length = notifiedCount c.trace
    rw [hevn]
    rfl

/-- The completion callback body (lines 150-160) preserves the machine
    invariant. -/
theorem Inv_stepFrame_cbBody (c : Config) (n : String) (err : Option Err) (rest : List Frame)
    (hexn : c.exn = none) (hst : c.stack = Frame.cbBody n err :: rest) (h : Inv c) :
    Inv (stepFrame c (Frame.cbBody n err) rest) := by
  cases err with
  | none =>
    exact Inv_mark_runStep c (Frame.cbBody n none) rest n (TEvent.calledback n none) rfl
      hexn hst h
  | some e =>
    exact Inv_mark_stop_pop c (Frame.cbBody n (some e)) rest n (TEvent.calledback n (some e))
      (some e) rfl hexn hst h

/-- The deferred-handle success branch (lines 169-175) preserves the machine
    invariant. -/
theorem Inv_stepFrame_resolveBody (c : Config) (n : String) (rest : List Frame)
    (hexn : c.exn = none) (hst : c.stack = Frame.resolveBody n :: rest) (h : Inv c) :
    Inv (stepFrame c (Frame.resolveBody n) rest) :=
  Inv_mark_runStep c (Frame.resolveBody n) rest n (TEvent.resolved n) rfl hexn hst h

/-- The deferred-handle failure branch (lines 176-183) preserves the machine
    invariant. -/
theorem Inv_stepFrame_rejectBody (c : Config) (n : String) (err : Option Err) (rest : List Frame)
    (hexn : c.exn = none) (hst : c.stack = Frame.rejectBody n err :: rest) (h : Inv c) :
    Inv (stepFrame c (Frame.rejectBody n err) rest) :=
  Inv_mark_stop_pop c (Frame.rejectBody n err) rest n (TEvent.rejected n err)
    (some (err.getD (n ++ " promise rejected"))) rfl hexn hst h

/-- One machine step preserves the master invariant. -/
theorem Inv_step (c : Config) (h : Inv c) : Inv (step c) := by
  cases hst : c.stack with
  | nil => rw [step_quiescent c hst]; exact h
  | cons f rest =>
    rw [step_eq_frame c f rest h.1 hst]
    cases f with
    | runStep => exact Inv_stepFrame_runStep c rest h.1 hst h
    | scan i => exact Inv_stepFrame_scan c i rest h.1 hst h
    | afterTask i => exact Inv_stepFrame_afterTask c i rest h.1 hst h
    | endScan => exact Inv_stepFrame_endScan c rest h.1 hst h
    | execFn n => exact Inv_stepFrame_execFn c n rest h.1 hst h
    | afterFn n => exact Inv_stepFrame_afterFn c n rest h.1 hst h
    | cbBody n err => exact Inv_stepFrame_cbBody c n err rest h.1 hst h
    | resolveBody n => exact Inv_stepFrame_resolveBody c n rest h.1 hst h
    | rejectBody n err => exact Inv_stepFrame_rejectBody c n err rest h.1 hst h

/-- Delivery of a completion signal preserves the master invariant: every
    scheduled handler body is a single non-scan frame with no pending rescan
    obligation. -/
theorem Inv_deliver (e : Event) (c : Config) (h : Inv c) : Inv (deliver e c) := by
  have hInv := h
  obtain ⟨hexn, hseqok, htwf, hsto, htro, hshape, hsi, hnot⟩ := h
  by_cases hq : c.stack = [] ∧ c.exn = none
  · cases e with
    | cbCall n err =>
      by_cases hm : n ∈ c.cbLive
      · rw [show deliver (Event.cbCall n err) c = { c with stack := [Frame.cbBody n err] }
            from by simp [deliver, hq, hm]]
        exact ⟨hexn, hseqok, htwf, trivial,
          TopRunOK_cons_other _ (Frame.cbBody n err) [] rfl (fun i hh => Frame.noConfusion hh)
            (fun hh => Frame.noConfusion hh),
          trivial, fun _ => ⟨trivial, trivial⟩, hnot⟩
      · rw [show deliver (Event.cbCall n err) c = c from by simp [deliver, hq, hm]]
        exact hInv
    | resolve n =>
      by_cases hm : n ∈ c.promisePending
      · rw [show deliver (Event.resolve n) c =
            { c with promisePending := c.promisePending.erase n,
                     stack := [Frame.resolveBody n] } from by simp [deliver, hq, hm]]
        exact ⟨hexn, hseqok, htwf, trivial,
          TopRunOK_cons_other _ (Frame.resolveBody n) [] rfl (fun i hh => Frame.noConfusion hh)
            (fun hh => Frame.noConfusion hh),
          trivial, fun _ => ⟨trivial, trivial⟩, hnot⟩
      · rw [show deliver (Event.resolve n) c = c from by simp [deliver, hq, hm]]
        exact hInv
    | reject n err =>
      by_cases hm : n ∈ c.promisePending
      · rw [show deliver (Event.reject n err) c =
            { c with promisePending := c.promisePending.erase n,
                     stack := [Frame.rejectBody n err] } from by simp [deliver, hq, hm]]
        exact ⟨hexn, hseqok, htwf, trivial,
          TopRunOK_cons_other _ (Frame.rejectBody n err) [] rfl (fun i hh => Frame.noConfusion hh)
            (fun hh => Frame.noConfusion hh),
          trivial, fun _ => ⟨trivial, trivial⟩, hnot⟩
      · rw [show deliver (Event.reject n err) c = c from by simp [deliver, hq, hm]]
        exact hInv
  · rw [show deliver e c = c from by simp [deliver, hq]]
    exact hInv

/-- Delivery of a completion signal never touches the orchestrator object or
    the event trace: it only schedules a handler body. -/
theorem deliver_o_trace (e : Event) (c : Config) :
    (deliver e c).o = c.o ∧ (deliver e c).trace = c.trace := by
  by_cases hq : c.stack = [] ∧ c.exn = none
  · cases e with
    | cbCall n err =>
      by_cases hm : n ∈ c.cbLive
      · rw [show deliver (Event.cbCall n err) c =
            { c with stack := [Frame.cbBody n err] } from by simp [deliver, hq, hm]]
        exact ⟨rfl, rfl⟩
      · rw [show deliver (Event.cbCall n err) c = c from by simp [deliver, hq, hm]]
        exact ⟨rfl, rfl⟩
    | resolve n =>
      by_cases hm : n ∈ c.promisePending
      · rw [show deliver (Event.resolve n) c =
            { c with promisePending := c.promisePending.erase n,
                     stack := [Frame.resolveBody n] } from by simp [deliver, hq, hm]]
        exact ⟨rfl, rfl⟩
      · rw [show deliver (Event.resolve n) c = c from by simp [deliver, hq, hm]]
        exact ⟨rfl, rfl⟩
    | reject n err =>
      by_cases hm : n ∈ c.promisePending
      · rw [show deliver (Event.reject n err) c =
            { c with promisePending := c.promisePending.erase n,
                     stack := [Frame.rejectBody n err] } from by simp [deliver, hq, hm]]
        exact ⟨rfl, rfl⟩
      · rw [show deliver (Event.reject n err) c = c from by simp [deliver, hq, hm]]
        exact ⟨rfl, rfl⟩
  · rw [show deliver e c = c from by simp [deliver, hq]]
    exact ⟨rfl, rfl⟩

/-- A call to run on a well-formed registry establishes the master invariant:
    on sequencing success the machine starts with a single _runStep entry and a
    sequence that is Nodup, registered and dependency-ordered (seqVisit_sound);
    on a sequencing failure the error goes through stop and the machine rests. -/
theorem Inv_runApi (names : List String) (nf : Bool) (c0 : Config)
    (htwf : TasksWF c0.o) : Inv (runApi names nf c0) := by
  unfold runApi runFinish
  cases hseq : sequence c0.o.tasks
      (runNames ⟨nf || c0.o.doneCallback, c0.o.seq, c0.o.tasks, c0.o.isRunning⟩ names) with
  | error e =>
    have hspec := stopFn_spec (some e) false
      ⟨⟨nf || c0.o.doneCallback, c0.o.seq, c0.o.tasks, c0.o.isRunning⟩, [], c0.cbLive,
        c0.promisePending, [], none⟩
    refine Inv_of_stopped _ hspec.2.2.2.2.2.2.1 hspec.1
      (TasksWF_congr c0.o _ hspec.2.2.1 htwf) ?_ ?_
      (NotifyOK_stop (some e) false _ ⟨fun _ => rfl, Nat.zero_le 1⟩)
    · rw [show (stopFn (some e) false
          ⟨⟨nf || c0.o.doneCallback, c0.o.seq, c0.o.tasks, c0.o.isRunning⟩, [], c0.cbLive,
            c0.promisePending, [], none⟩).stack = ([] : List Frame) from hspec.2.2.2.1]
      trivial
    · rw [show (stopFn (some e) false
          ⟨⟨nf || c0.o.doneCallback, c0.o.seq, c0.o.tasks, c0.o.isRunning⟩, [], c0.cbLive,
            c0.promisePending, [], none⟩).stack = ([] : List Frame) from hspec.2.2.2.1]
      trivial
  | ok s =>
    have hgood : GoodRes c0.o.tasks s := by
      have hs := seqVisit_sound c0.o.tasks _ _ [] [] s hseq
        ⟨List.nodup_nil, fun m hm => absurd hm (List.not_mem_nil m)⟩
      exact hs.2.1
    refine ⟨rfl, ?_, htwf, trivial, fun f _ _ => rfl, trivial, fun _ => ⟨trivial, trivial⟩,
      ⟨fun _ => rfl, Nat.zero_le 1⟩⟩
    intro _
    refine ⟨hgood.1, ?_, ?_⟩
    · intro m hm
      rcases hgood.2 m hm with ⟨t, hlt, _⟩
      exact ⟨t, hlt⟩
    · intro m t d hm hlt hd
      have hlt2 : lookupT c0.o.tasks m = some t := hlt
      rcases hgood.2 m hm with ⟨t2, hlt3, hdeps⟩
      rw [hlt2] at hlt3
      have ht2 : t = t2 := by injection hlt3
      subst ht2
      exact hdeps d hd

/-- Every configuration produced by run on a well-formed registry satisfies the
    master invariant. -/
theorem Inv_initial (c : Config) (h : InitialRun c) : Inv c := by
  rcases h with ⟨names, nf, c0, htwf, hc⟩
  rw [hc]
  exact Inv_runApi names nf c0 htwf

/-- The master invariant holds at every machine configuration reachable by
    steps and completion deliveries. -/
theorem Inv_reach (a b : Config) (ha : Inv a) (h : Reach a b) : Inv b := by
  induction h with
  | refl => exact ha
  | tail hab ih => exact Inv_step _ ih
  | ev e hab ih => exact Inv_deliver e _ ih

/-- Executors are invoked only from the scan loop: a step whose top frame is not
    a scan position leaves the list of started names unchanged. -/
theorem step_no_start (c : Config) (hexn : c.exn = none)
    (hscan : ∀ i, c.stack.head? = some (Frame.scan i) → False) :
    startedOf (step c).trace = startedOf c.trace := by
  cases hst : c.stack with
  | nil => rw [step_quiescent c hst]
  | cons f rest =>
    rw [step_eq_frame c f rest hexn hst]
    cases f with
    | scan i => exact ((hscan i (by rw [hst]; rfl))).elim
    | runStep =>
      by_cases hrun : c.o.isRunning = true
      · rw [show stepFrame c Frame.runStep rest = { c with stack := Frame.scan 0 :: rest }
            from by simp [stepFrame, hrun]]
      · rw [show stepFrame c Frame.runStep rest = { c with stack := rest }
            from by simp [stepFrame, hrun]]
    | afterTask i =>
      by_cases hrun : c.o.isRunning = true
      · rw [show stepFrame c (Frame.afterTask i) rest =
            { c with stack := Frame.scan (i + 1) :: rest } from by simp [stepFrame, hrun]]
      · rw [show stepFrame c (Frame.afterTask i) rest = { c with stack := rest }
            from by simp [stepFrame, hrun]]
    | endScan =>
      cases had : allDoneScan c.o.tasks c.o.seq with
      | none =>
        rw [show stepFrame c Frame.endScan rest =
            { c with exn := some "TypeError: task is undefined", stack := [] }
            from by simp [stepFrame, had]]
      | some b =>
        cases b with
        | true =>
          rw [show stepFrame c Frame.endScan rest = stopFn none true { c with stack := rest }
              from by simp [stepFrame, had]]
          exact stopFn_startedOf none true { c with stack := rest }
        | false =>
          rw [show stepFrame c Frame.endScan rest = { c with stack := rest }
              from by simp [stepFrame, had]]
    | execFn n =>
      cases hlt : lookupT c.o.tasks n with
      | none =>
        rw [show stepFrame c (Frame.execFn n) rest = { c with stack := rest }
            from by simp [stepFrame, hlt]]
      | some t =>
        cases hfn : t.fn with
        | func f =>
          cases hcb : f.syncCb with
          | some e0 =>
            rw [show stepFrame c (Frame.execFn n) rest =
                { c with stack := Frame.cbBody n e0 :: Frame.afterFn n :: rest }
                from by simp [stepFrame, hlt, hfn, hcb]]
          | none =>
            rw [show stepFrame c (Frame.execFn n) rest =
                { c with stack := Frame.afterFn n :: rest }
                from by simp [stepFrame, hlt, hfn, hcb]]
        | undef =>
          rw [show stepFrame c (Frame.execFn n) rest = { c with stack := Frame.afterFn n :: rest }
              from by simp [stepFrame, hlt, hfn]]
        | str s =>
          rw [show stepFrame c (Frame.execFn n) rest = { c with stack := Frame.afterFn n :: rest }
              from by simp [stepFrame, hlt, hfn]]
        | arr l =>
          rw [show stepFrame c (Frame.execFn n) rest = { c with stack := Frame.afterFn n :: rest }
              from by simp [stepFrame, hlt, hfn]]
    | afterFn n =>
      cases hlt : lookupT c.o.tasks n with
      | none =>
        rw [show stepFrame c (Frame.afterFn n) rest = { c with stack := rest }
            from by simp [stepFrame, hlt]]
      | some t =>
        cases hfn : t.fn with
        | undef =>
          rw [show stepFrame c (Frame.afterFn n) rest =
              { (stopFn (some "TypeError: task.fn is not a function") false c)
                with exn := some "TypeError: task.fn is undefined", stack := [] }
              from by simp [stepFrame, hlt, hfn, JVal.jlen]]
          exact stopFn_startedOf _ _ c
        | str s =>
          by_cases hsl : s.length = 0
          · rw [show stepFrame c (Frame.afterFn n) rest =
                { (markDone (stopFn (some "TypeError: task.fn.call is not a function") false c) n)
                  with trace := (stopFn (some "TypeError: task.fn.call is not a function")
                    false c).trace ++ [TEvent.finishedSync n], stack := rest }
                from by simp [stepFrame, hlt, hfn, JVal.jlen, hsl]]
            show startedOf ((stopFn (some "TypeError: task.fn.call is not a function")
                false c).trace ++ [TEvent.finishedSync n]) = startedOf c.trace
            rw [startedOf_snoc _ (TEvent.finishedSync n) rfl]
            exact stopFn_startedOf _ _ c
          · rw [show stepFrame c (Frame.afterFn n) rest =
                { (stopFn (some "TypeError: task.fn.call is not a function") false c)
                  with stack := rest }
                from by simp [stepFrame, hlt, hfn, JVal.jlen, hsl]]
            exact stopFn_startedOf _ _ c
        | arr l =>
          by_cases hsl : l.length = 0
          · rw [show stepFrame c (Frame.afterFn n) rest =
                { (markDone (stopFn (some "TypeError: task.fn.call is not a function") false c) n)
                  with trace := (stopFn (some "TypeError: task.fn.call is not a function")
                    false c).trace ++ [TEvent.finishedSync n], stack := rest }
                from by simp [stepFrame, hlt, hfn, JVal.jlen, hsl]]
            show startedOf ((stopFn (some "TypeError: task.fn.call is not a function")
                false c).trace ++ [TEvent.finishedSync n]) = startedOf c.trace
            rw [startedOf_snoc _ (TEvent.finishedSync n) rfl]
            exact stopFn_startedOf _ _ c
          · rw [show stepFrame c (Frame.afterFn n) rest =
                { (stopFn (some "TypeError: task.fn.call is not a function") false c)
                  with stack := rest }
                from by simp [stepFrame, hlt, hfn, JVal.jlen, hsl]]
            exact stopFn_startedOf _ _ c
        | func f =>
          cases hth : f.thrown with
          | some e =>
            by_cases har : f.arity = 0
            · rw [show stepFrame c (Frame.afterFn n) rest =
                  { (markDone (stopFn (some (e.getD (n ++ " threw an exception"))) false c) n)
                    with trace := (stopFn (some (e.getD (n ++ " threw an exception")))
                      false c).trace ++ [TEvent.finishedSync n], stack := rest }
                  from by simp [stepFrame, hlt, hfn, hth, JVal.jlen, har]]
              show startedOf ((stopFn (some (e.getD (n ++ " threw an exception")))
                  false c).trace ++ [TEvent.finishedSync n]) = startedOf c.trace
              rw [startedOf_snoc _ (TEvent.finishedSync n) rfl]
              exact stopFn_startedOf _ _ c
            · rw [show stepFrame c (Frame.afterFn n) rest =
                  { (stopFn (some (e.getD (n ++ " threw an exception"))) false c)
                    with stack := rest }
                  from by simp [stepFrame, hlt, hfn, hth, JVal.jlen, har]]
              exact stopFn_startedOf _ _ c
          | none =>
            by_cases hpl : f.promiseLike = true
            · rw [show stepFrame c (Frame.afterFn n) rest =
                  { c with promisePending := n :: c.promisePending, stack := rest }
                  from by simp [stepFrame, hlt, hfn, hth, hpl]]
            · by_cases har : f.arity = 0
              · rw [show stepFrame c (Frame.afterFn n) rest =
                    { (markDone c n) with trace := c.trace ++ [TEvent.finishedSync n], stack := rest }
                    from by simp [stepFrame, hlt, hfn, hth, hpl, JVal.jlen, har]]
                exact startedOf_snoc c.trace (TEvent.finishedSync n) rfl
              · rw [show stepFrame c (Frame.afterFn n) rest = { c with stack := rest }
                    from by simp [stepFrame, hlt, hfn, hth, hpl, JVal.jlen, har]]
    | cbBody n err =>
      cases err with
      | none => exact startedOf_snoc c.trace (TEvent.calledback n none) rfl
      | some e =>
        show startedOf (stopFn (some e) false { (markDone c n)
            with trace := c.trace ++ [TEvent.calledback n (some e)], stack := rest }).trace
          = startedOf c.trace
        rw [stopFn_startedOf]
        show startedOf (c.trace ++ [TEvent.calledback n (some e)]) = startedOf c.trace
        exact startedOf_snoc _ _ rfl
    | resolveBody n => exact startedOf_snoc c.trace (TEvent.resolved n) rfl
    | rejectBody n err =>
      show startedOf (stopFn (some (err.getD (n ++ " promise rejected"))) false
          { (markDone c n) with trace := c.trace ++ [TEvent.rejected n err], stack := rest }).trace
        = startedOf c.trace
      rw [stopFn_startedOf]
      show startedOf (c.trace ++ [TEvent.rejected n err]) = startedOf c.trace
      exact startedOf_snoc _ _ rfl

/-- Nothing in the machine ever sets the running flag: a stopped configuration
    whose top frame is not a scan position stays stopped after a step. -/
theorem step_stopped (c : Config) (hexn : c.exn = none) (hr : c.o.isRunning = false)
    (hscan : ∀ i, c.stack.head? = some (Frame.scan i) → False) :
    (step c).o.isRunning = false := by
  cases hst : c.stack with
  | nil => rw [step_quiescent c hst]; exact hr
  | cons f rest =>
    rw [step_eq_frame c f rest hexn hst]
    cases f with
    | scan i => exact ((hscan i (by rw [hst]; rfl))).elim
    | runStep =>
      rw [show stepFrame c Frame.runStep rest = { c with stack := rest }
          from by simp [stepFrame, hr]]
      exact hr
    | afterTask i =>
      rw [show stepFrame c (Frame.afterTask i) rest = { c with stack := rest }
          from by simp [stepFrame, hr]]
      exact hr
    | endScan =>
      cases had : allDoneScan c.o.tasks c.o.seq with
      | none =>
        rw [show stepFrame c Frame.endScan rest =
            { c with exn := some "TypeError: task is undefined", stack := [] }
            from by simp [stepFrame, had]]
        exact hr
      | some b =>
        cases b with
        | true =>
          rw [show stepFrame c Frame.endScan rest = stopFn none true { c with stack := rest }
              from by simp [stepFrame, had]]
          exact (stopFn_spec none true { c with stack := rest }).1
        | false =>
          rw [show stepFrame c Frame.endScan rest = { c with stack := rest }
              from by simp [stepFrame, had]]
          exact hr
    | execFn n =>
      cases hlt : lookupT c.o.tasks n with
      | none =>
        rw [show stepFrame c (Frame.execFn n) rest = { c with stack := rest }
            from by simp [stepFrame, hlt]]
        exact hr
      | some t =>
        cases hfn : t.fn with
        | func f =>
          cases hcb : f.syncCb with
          | some e0 =>
            rw [show stepFrame c (Frame.execFn n) rest =
                { c with stack := Frame.cbBody n e0 :: Frame.afterFn n :: rest }
                from by simp [stepFrame, hlt, hfn, hcb]]
            exact hr
          | none =>
            rw [show stepFrame c (Frame.execFn n) rest =
                { c with stack := Frame.afterFn n :: rest }
                from by simp [stepFrame, hlt, hfn, hcb]]
            exact hr
        | undef =>
          rw [show stepFrame c (Frame.execFn n) rest = { c with stack := Frame.afterFn n :: rest }
              from by simp [stepFrame, hlt, hfn]]
          exact hr
        | str s =>
          rw [show stepFrame c (Frame.execFn n) rest = { c with stack := Frame.afterFn n :: rest }
              from by simp [stepFrame, hlt, hfn]]
          exact hr
        | arr l =>
          rw [show stepFrame c (Frame.execFn n) rest = { c with stack := Frame.afterFn n :: rest }
              from by simp [stepFrame, hlt, hfn]]
          exact hr
    | afterFn n =>
      cases hlt : lookupT c.o.tasks n with
      | none =>
        rw [show stepFrame c (Frame.afterFn n) rest = { c with stack := rest }
            from by simp [stepFrame, hlt]]
        exact hr
      | some t =>
        cases hfn : t.fn with
        | undef =>
          rw [show stepFrame c (Frame.afterFn n) rest =
              { (stopFn (some "TypeError: task.fn is not a function") false c)
                with exn := some "TypeError: task.fn is undefined", stack := [] }
              from by simp [stepFrame, hlt, hfn, JVal.jlen]]
          exact (stopFn_spec (some "TypeError: task.fn is not a function") false c).1
        | str s =>
          by_cases hsl : s.length = 0
          · rw [show stepFrame c (Frame.afterFn n) rest =
                { (markDone (stopFn (some "TypeError: task.fn.call is not a function") false c) n)
                  with trace := (stopFn (some "TypeError: task.fn.call is not a function")
                    false c).trace ++ [TEvent.finishedSync n], stack := rest }
                from by simp [stepFrame, hlt, hfn, JVal.jlen, hsl]]
            exact (stopFn_spec (some "TypeError: task.fn.call is not a function") false c).1
          · rw [show stepFrame c (Frame.afterFn n) rest =
                { (stopFn (some "TypeError: task.fn.call is not a function") false c)
                  with stack := rest }
                from by simp [stepFrame, hlt, hfn, JVal.jlen, hsl]]
            exact (stopFn_spec (some "TypeError: task.fn.call is not a function") false c).1
        | arr l =>
          by_cases hsl : l.length = 0
          · rw [show stepFrame c (Frame.afterFn n) rest =
                { (markDone (stopFn (some "TypeError: task.fn.call is not a function") false c) n)
                  with trace := (stopFn (some "TypeError: task.fn.call is not a function")
                    false c).trace ++ [TEvent.finishedSync n], stack := rest }
                from by simp [stepFrame, hlt, hfn, JVal.jlen, hsl]]
            exact (stopFn_spec (some "TypeError: task.fn.call is not a function") false c).1
          · rw [show stepFrame c (Frame.afterFn n) rest =
                { (stopFn (some "TypeError: task.fn.call is not a function") false c)
                  with stack := rest }
                from by simp [stepFrame, hlt, hfn, JVal.jlen, hsl]]
            exact (stopFn_spec (some "TypeError: task.fn.call is not a function") false c).1
        | func f =>
          cases hth : f.thrown with
          | some e =>
            by_cases har : f.arity = 0
            · rw [show stepFrame c (Frame.afterFn n) rest =
                  { (markDone (stopFn (some (e.getD (n ++ " threw an exception"))) false c) n)
                    with trace := (stopFn (some (e.getD (n ++ " threw an exception")))
                      false c).trace ++ [TEvent.finishedSync n], stack := rest }
                  from by simp [stepFrame, hlt, hfn, hth, JVal.jlen, har]]
              exact (stopFn_spec (some (e.getD (n ++ " threw an exception"))) false c).1
            · rw [show stepFrame c (Frame.afterFn n) rest =
                  { (stopFn (some (e.getD (n ++ " threw an exception"))) false c)
                    with stack := rest }
                  from by simp [stepFrame, hlt, hfn, hth, JVal.jlen, har]]
              exact (stopFn_spec (some (e.getD (n ++ " threw an exception"))) false c).1
          | none =>
            by_cases hpl : f.promiseLike = true
            · rw [show stepFrame c (Frame.afterFn n) rest =
                  { c with promisePending := n :: c.promisePending, stack := rest }
                  from by simp [stepFrame, hlt, hfn, hth, hpl]]
              exact hr
            · by_cases har : f.arity = 0
              · rw [show stepFrame c (Frame.afterFn n) rest =
                    { (markDone c n) with trace := c.trace ++ [TEvent.finishedSync n], stack := rest }
                    from by simp [stepFrame, hlt, hfn, hth, hpl, JVal.jlen, har]]
                exact hr
              · rw [show stepFrame c (Frame.afterFn n) rest = { c with stack := rest }
                    from by simp [stepFrame, hlt, hfn, hth, hpl, JVal.jlen, har]]
                exact hr
    | cbBody n err =>
      cases err with
      | none => exact hr
      | some e =>
        exact (stopFn_spec (some e) false { (markDone c n)
          with trace := c.trace ++ [TEvent.calledback n (some e)], stack := rest }).1
    | resolveBody n => exact hr
    | rejectBody n err =>
      exact (stopFn_spec (some (err.getD (n ++ " promise rejected"))) false { (markDone c n)
        with trace := c.trace ++ [TEvent.rejected n err], stack := rest }).1

/-- Once the run flag has been cleared, everything reachable keeps the
    invariant, stays stopped and starts no further executor. -/
theorem Reach_stopped_silent (c : Config) (h : Inv c) (hr : c.o.isRunning = false) :
    ∀ c2, Reach c c2 → Inv c2 ∧ c2.o.isRunning = false ∧
      startedOf c2.trace = startedOf c.trace := by
  intro c2 hrc
  induction hrc with
  | refl => exact ⟨h, hr, rfl⟩
  | tail hab ih =>
    rcases ih with ⟨hi, hri, hsi⟩
    refine ⟨Inv_step _ hi, step_stopped _ hi.1 hri (fun i hh =>
      Bool.noConfusion (hri.symm.trans (hi.2.2.2.2.1 (Frame.scan i) hh (Or.inl ⟨i, rfl⟩)))), ?_⟩
    rw [step_no_start _ hi.1 (fun i hh =>
      Bool.noConfusion (hri.symm.trans (hi.2.2.2.2.1 (Frame.scan i) hh (Or.inl ⟨i, rfl⟩)))), hsi]
  | ev e hab ih =>
    rcases ih with ⟨hi, hri, hsi⟩
    refine ⟨Inv_deliver e _ hi, ?_, ?_⟩
    · rw [(deliver_o_trace e _).1]
      exact hri
    · rw [(deliver_o_trace e _).2]
      exact hsi

/-- C1: during any run (an invariant machine configuration), an executor is
    invoked, that is a started event is emitted by the next machine step, only
    from a scan position i of the stored sequence whose task is registered, not
    done, not running, and all of whose dependency tasks exist and are done; the
    dependencies sit at earlier sequence positions than i, and no earlier
    sequence position holds an eligible task, so among simultaneously eligible
    tasks the start order follows sequence position. -/
theorem C1_start_guard (c : Config) (h : Inv c) (n : String)
    (hem : (step c).trace = c.trace ++ [TEvent.started n]) :
    ∃ i t, c.stack.head? = some (Frame.scan i) ∧ c.o.isRunning = true ∧
      c.o.seq.get? i = some n ∧ lookupT c.o.tasks n = some t ∧
      t.done = false ∧ t.running = false ∧
      (∀ d, d ∈ t.dep → ∃ td, lookupT c.o.tasks d = some td ∧ td.done = true) ∧
      (∀ d, d ∈ t.dep → c.o.seq.indexOf d < i) ∧
      (∀ j, j < i → ¬ eligAt c.o j) := by
  have hInv := h
  obtain ⟨hexn, hseqok, htwf, hsto, htro, hshape, hsi, hnot⟩ := h
  by_cases hsc : ∃ i, c.stack.head? = some (Frame.scan i)
  · rcases hsc with ⟨i, hh⟩
    cases hstk : c.stack with
    | nil => rw [hstk] at hh; exact Option.noConfusion hh
    | cons f rest =>
      rw [hstk] at hh
      have hf : f = Frame.scan i := by injection hh
      subst hf
      rw [step_eq_frame c (Frame.scan i) rest hexn hstk] at hem
      have hrun : c.o.isRunning = true :=
        htro (Frame.scan i) (by rw [hstk]; rfl) (Or.inl ⟨i, rfl⟩)
      have hseqok2 := hseqok hrun
      have hsi2 : StackInv c.o (Frame.scan i :: rest) (fun _ => False) := by
        have hx := hsi hrun; rw [hstk] at hx; exact hx
      cases hget : c.o.seq.get? i with
      | none =>
        have hget2 := hget
        rw [List.get?_eq_getElem?] at hget2
        rw [show stepFrame c (Frame.scan i) rest = { c with stack := Frame.endScan :: rest }
            from by simp [stepFrame, hget2]] at hem
        exact (trace_ne_append c.trace (TEvent.started n) hem).elim
      | some n0 =>
        have hget2 := hget
        rw [List.get?_eq_getElem?] at hget2
        cases hlt : lookupT c.o.tasks n0 with
        | none =>
          rcases hseqok2.2.1 n0 (List.get?_mem hget) with ⟨t0, ht0⟩
          rw [ht0] at hlt
          exact Option.noConfusion hlt
        | some t =>
          by_cases hgd : t.done = false ∧ t.running = false
          · cases hready : readyScan c.o.tasks n0 t.dep with
            | go =>
              rw [show stepFrame c (Frame.scan i) rest = { c with
                  o := { c.o with
                    tasks := updTask c.o.tasks n0 (fun u => { u with running := true }) },
                  cbLive := n0 :: c.cbLive,
                  trace := c.trace ++ [TEvent.started n0],
                  stack := Frame.execFn n0 :: Frame.afterTask i :: rest }
                  from by simp [stepFrame, hget2, hlt, hgd.1, hgd.2, hready]] at hem
              have hn0 : TEvent.started n0 = TEvent.started n :=
                trace_append_one c.trace _ _ hem
              have hnn : n0 = n := by injection hn0
              subst hnn
              refine ⟨i, t, hh, hrun, hget, hlt, hgd.1, hgd.2, ?_, ?_, ?_⟩
              · intro d hd
                exact readyScan_go c.o.tasks n0 t.dep hready d hd
              · intro d hd
                have hmem : n0 ∈ c.o.seq := List.get?_mem hget
                have hdp := hseqok2.2.2 n0 t d hmem hlt hd
                rw [nodup_indexOf_eq c.o.seq hseqok2.1 i n0 hget] at hdp
                exact hdp.2
              · intro j hj hel
                exact hsi2.1 j hj hel
            | wait =>
              rw [show stepFrame c (Frame.scan i) rest =
                  { c with stack := Frame.afterTask i :: rest }
                  from by simp [stepFrame, hget2, hlt, hgd.1, hgd.2, hready]] at hem
              exact (trace_ne_append c.trace (TEvent.started n) hem).elim
            | missing msg =>
              rw [show stepFrame c (Frame.scan i) rest =
                  stopFn (some msg) false { c with stack := Frame.afterTask i :: rest }
                  from by simp [stepFrame, hget2, hlt, hgd.1, hgd.2, hready]] at hem
              have hns : startedOf (stopFn (some msg) false
                  { c with stack := Frame.afterTask i :: rest }).trace = startedOf c.trace :=
                stopFn_startedOf _ _ _
              rw [hem, startedOf_append] at hns
              have hns2 : startedOf c.trace ++ startedOf [TEvent.started n]
                  = startedOf c.trace := hns
              have h1 : (startedOf [TEvent.started n]).length = 1 := rfl
              have hlen := congrArg List.length hns2
              rw [List.length_append] at hlen
              have hfalse : False := by omega
              exact hfalse.elim
          · rw [show stepFrame c (Frame.scan i) rest =
                { c with stack := Frame.afterTask i :: rest }
                from by simp [stepFrame, hget2, hlt, hgd]] at hem
            exact (trace_ne_append c.trace (TEvent.started n) hem).elim
  · have hns := step_no_start c hexn (fun i0 hh => hsc ⟨i0, hh⟩)
    rw [hem, startedOf_append] at hns
    have hns2 : startedOf c.trace ++ startedOf [TEvent.started n] = startedOf c.trace := hns
    have h1 : (startedOf [TEvent.started n]).length = 1 := rfl
    have hlen := congrArg List.length hns2
    rw [List.length_append] at hlen
    have hfalse : False := by omega
    exact hfalse.elim

/-- A one-task registry whose task has a callback-style executor, right after
    run has entered the scan loop. -/
def c1Orch : Orchestrator :=
  ⟨false, [], [("a", ⟨"a", [], JVal.func ⟨1, none, none, false⟩, false, false⟩)], false⟩

def c1Run : Config := step (runApi ["a"] false (initConfig c1Orch))

/-- Witness for C1: the machine at the scan position that is about to start
    task a satisfies every conjunct of the guard. -/
theorem C1_witness :
    ∃ i t, c1Run.stack.head? = some (Frame.scan i) ∧ c1Run.o.isRunning = true ∧
      c1Run.o.seq.get? i = some "a" ∧ lookupT c1Run.o.tasks "a" = some t ∧
      t.done = false ∧ t.running = false ∧
      (∀ d, d ∈ t.dep → ∃ td, lookupT c1Run.o.tasks d = some td ∧ td.done = true) ∧
      (∀ d, d ∈ t.dep → c1Run.o.seq.indexOf d < i) ∧
      (∀ j, j < i → ¬ eligAt c1Run.o j) :=
  C1_start_guard c1Run
    (Inv_step _ (Inv_runApi ["a"] false (initConfig c1Orch)
      (fun p hp => by
        rw [List.mem_singleton.mp hp]
        exact fun hc => JVal.noConfusion hc)))
    "a" (by decide)

/-- C3: along every execution of a run (machine steps interleaved with
    completion deliveries, from a configuration produced by run on a well-formed
    registry), no exception is ever thrown out of the machine, the completion
    notifier never fires while still registered and fires at most once in total;
    once the run flag is cleared, as every failure path leaves it, no further
    executor is ever started; and a rejection delivered to a pending deferred
    handle while a notifier is registered stops the run and delivers exactly
    that error to the notifier in the same synchronous burst. -/
theorem C3_failure_aborts (c0 c : Config) (hinit : InitialRun c0) (hr : Reach c0 c) :
    c.exn = none ∧
    (c.o.doneCallback = true → notifiedCount c.trace = 0) ∧
    notifiedCount c.trace ≤ 1 ∧
    (c.o.isRunning = false → ∀ c2, Reach c c2 → startedOf c2.trace = startedOf c.trace) ∧
    (∀ n err, c.stack = [] → n ∈ c.promisePending → c.o.doneCallback = true →
      (step (deliver (Event.reject n err) c)).o.isRunning = false ∧
      notifiedOf (step (deliver (Event.reject n err) c)).trace =
        [some (err.getD (n ++ " promise rejected"))]) := by
  have hInv : Inv c := Inv_reach c0 c (Inv_initial c0 hinit) hr
  refine ⟨hInv.1, hInv.2.2.2.2.2.2.2.1, hInv.2.2.2.2.2.2.2.2, ?_, ?_⟩
  · intro hstop c2 hrc
    exact (Reach_stopped_silent c hInv hstop c2 hrc).2.2
  · intro n err hstk hmem hdc
    have hd1 : deliver (Event.reject n err) c =
        { c with promisePending := c.promisePending.erase n, stack := [Frame.rejectBody n err] } := by
      simp [deliver, hstk, hInv.1, hmem]
    have hd2 : step { c with promisePending := c.promisePending.erase n, stack := [Frame.rejectBody n err] } =
        stopFn (some (err.getD (n ++ " promise rejected"))) false
          { (markDone { c with promisePending := c.promisePending.erase n, stack := [Frame.rejectBody n err] } n) with trace := c.trace ++ [TEvent.rejected n err], stack := [] } := by
      rw [step_eq_frame
        { c with promisePending := c.promisePending.erase n, stack := [Frame.rejectBody n err] }
        (Frame.rejectBody n err) []
        (show ({ c with promisePending := c.promisePending.erase n, stack := [Frame.rejectBody n err] } : Config).exn = none from hInv.1)
        rfl]
      rfl
    rw [hd1, hd2]
    refine ⟨(stopFn_spec _ _ _).1, ?_⟩
    have htr : (stopFn (some (err.getD (n ++ " promise rejected"))) false
        { (markDone { c with promisePending := c.promisePending.erase n, stack := [Frame.rejectBody n err] } n) with trace := c.trace ++ [TEvent.rejected n err], stack := [] }).trace =
        (c.trace ++ [TEvent.rejected n err])
          ++ [TEvent.notified (some (err.getD (n ++ " promise rejected")))] := by
      simp [stopFn, markDone, hdc]
    rw [htr, notifiedOf_append, notifiedOf_append]
    have hz : notifiedOf c.trace = [] :=
      List.length_eq_zero.mp (hInv.2.2.2.2.2.2.2.1 hdc)
    rw [hz]
    rfl

/-- A one-task registry with a deferred-handle executor, as run leaves it. -/
def c3Orch : Orchestrator :=
  ⟨false, [], [("a", ⟨"a", [], JVal.func ⟨0, none, none, true⟩, false, false⟩)], false⟩

def c3Run : Config := runApi ["a"] true (initConfig c3Orch)

/-- Witness for C3: the configuration produced by run on the one-task registry
    satisfies every conjunct. -/
theorem C3_witness :
    c3Run.exn = none ∧
    (c3Run.o.doneCallback = true → notifiedCount c3Run.trace = 0) ∧
    notifiedCount c3Run.trace ≤ 1 ∧
    (c3Run.o.isRunning = false → ∀ c2, Reach c3Run c2 →
      startedOf c2.trace = startedOf c3Run.trace) ∧
    (∀ n err, c3Run.stack = [] → n ∈ c3Run.promisePending → c3Run.o.doneCallback = true →
      (step (deliver (Event.reject n err) c3Run)).o.isRunning = false ∧
      notifiedOf (step (deliver (Event.reject n err) c3Run)).trace =
        [some (err.getD (n ++ " promise rejected"))]) :=
  C3_failure_aborts c3Run c3Run
    ⟨["a"], true, initConfig c3Orch,
      fun p hp => by
        rw [List.mem_singleton.mp hp]
        exact fun hc => JVal.noConfusion hc,
      rfl⟩
    (Reach.refl c3Run)

end Orch
